import Mathlib

/-!
# TextWiser schema-resolution and parameter-routing engine: a verification development

The repository's core (schema parser, parameter router, pipeline executor) is
described by its specification; the repository artifacts visible here (the
changelog and the model-selection notebook) only exercise it.  The definitions
below are therefore a shallow embedding of that engine, modelled from the
specification's data model (§3), resolution rules (§4.1), router contract
(§4.2), lazy state machine (§4.3) and executor contract (§4.4).

Parameter paths, written `a__b__0__c` in the flat string API, are embedded as
lists of segments (`Seg.name` for named slots and kwarg names, `Seg.idx` for
zero-based child indices); `renderPath` recovers the `__`-joined flat form.
-/

set_option maxRecDepth 4096

namespace TextWiser

/-- A parameter-path segment: a named slot / kwarg name, or a zero-based
child index. In the flat string API segments are joined by `__`. -/
inductive Seg where
  | name (s : String)
  | idx (n : Nat)
deriving DecidableEq

/-- Render one segment the way it appears in the flat `__`-joined path. -/
def Seg.render : Seg → String
  | .name s => s
  | .idx n => toString n

/-- The flat string form of a parameter path (`__`-joined segments). -/
def renderPath (p : List Seg) : String :=
  String.intercalate "__" (p.map Seg.render)

/-- Modelled from the spec (§3, §4.3): the node lifecycle states. -/
inductive NState where
  | Uninitialized
  | Constructed
  | Fitted
deriving DecidableEq

/-- Modelled from the spec (§3 "Schema"): the nested, loosely-typed
configuration literal — strings, numbers, ordered lists, and string-keyed
mappings.  Kwarg values are such literals (scalars or nested schemas). -/
inductive Lit where
  | str (s : String)
  | num (n : Int)
  | list (xs : List Lit)
  | map (entries : List (String × Lit))

mutual

/-- Decidable equality on literals (nested inductive, written by hand). -/
def decEqLit : (a b : Lit) → Decidable (a = b)
  | .str a, .str b =>
      if h : a = b then .isTrue (by rw [h]) else .isFalse (fun he => h (by cases he; rfl))
  | .num a, .num b =>
      if h : a = b then .isTrue (by rw [h]) else .isFalse (fun he => h (by cases he; rfl))
  | .list xs, .list ys =>
      match decEqLitList xs ys with
      | .isTrue h => .isTrue (by rw [h])
      | .isFalse h => .isFalse (fun he => h (by cases he; rfl))
  | .map es, .map fs =>
      match decEqLitAssoc es fs with
      | .isTrue h => .isTrue (by rw [h])
      | .isFalse h => .isFalse (fun he => h (by cases he; rfl))
  | .str _, .num _ => .isFalse (fun h => Lit.noConfusion h)
  | .str _, .list _ => .isFalse (fun h => Lit.noConfusion h)
  | .str _, .map _ => .isFalse (fun h => Lit.noConfusion h)
  | .num _, .str _ => .isFalse (fun h => Lit.noConfusion h)
  | .num _, .list _ => .isFalse (fun h => Lit.noConfusion h)
  | .num _, .map _ => .isFalse (fun h => Lit.noConfusion h)
  | .list _, .str _ => .isFalse (fun h => Lit.noConfusion h)
  | .list _, .num _ => .isFalse (fun h => Lit.noConfusion h)
  | .list _, .map _ => .isFalse (fun h => Lit.noConfusion h)
  | .map _, .str _ => .isFalse (fun h => Lit.noConfusion h)
  | .map _, .num _ => .isFalse (fun h => Lit.noConfusion h)
  | .map _, .list _ => .isFalse (fun h => Lit.noConfusion h)

/-- Decidable equality on lists of literals. -/
def decEqLitList : (a b : List Lit) → Decidable (a = b)
  | [], [] => .isTrue rfl
  | [], _ :: _ => .isFalse (fun h => List.noConfusion h)
  | _ :: _, [] => .isFalse (fun h => List.noConfusion h)
  | x :: xs, y :: ys =>
      match decEqLit x y, decEqLitList xs ys with
      | .isTrue h1, .isTrue h2 => .isTrue (by rw [h1, h2])
      | .isFalse h1, _ => .isFalse (fun he => h1 (by cases he; rfl))
      | _, .isFalse h2 => .isFalse (fun he => h2 (by cases he; rfl))

/-- Decidable equality on kwargs / map-entry association lists. -/
def decEqLitAssoc : (a b : List (String × Lit)) → Decidable (a = b)
  | [], [] => .isTrue rfl
  | [], _ :: _ => .isFalse (fun h => List.noConfusion h)
  | _ :: _, [] => .isFalse (fun h => List.noConfusion h)
  | (k, v) :: es, (k', v') :: fs =>
      if hk : k = k' then
        match decEqLit v v', decEqLitAssoc es fs with
        | .isTrue h1, .isTrue h2 => .isTrue (by rw [hk, h1, h2])
        | .isFalse h1, _ => .isFalse (fun he => h1 (by cases he; rfl))
        | _, .isFalse h2 => .isFalse (fun he => h2 (by cases he; rfl))
      else .isFalse (fun he => hk (by cases he; rfl))

end

instance : DecidableEq Lit := decEqLit

/-- Modelled from the spec (§7): the error taxonomy of the engine
(backend-execution errors are out of scope: backends are opaque and total
in this model). -/
inductive TwError where
  | schemaError (fragment : Lit)
  | unknownBackend (backendName : String)
  | paramPath (path : List Seg) (seg : Seg)
deriving DecidableEq

/-- Modelled from the spec (§3): the composition tree.  A Leaf owns a backend
name, its kwargs and a lazily created backend instance (modelled as an
optional handle recording the resolved backend name); Sequential and Concat
own ordered children.  Every node carries a lifecycle state. -/
inductive Node where
  | leaf (backendName : String) (kwargs : List (String × Lit))
         (state : NState) (backendInstance : Option String)
  | seqn (state : NState) (children : List Node)
  | cat (state : NState) (children : List Node)

mutual

/-- Decidable equality on composition trees (nested inductive, by hand). -/
def decEqNode : (a b : Node) → Decidable (a = b)
  | .leaf n kw st i, .leaf n' kw' st' i' =>
      if h : n = n' ∧ kw = kw' ∧ st = st' ∧ i = i' then
        .isTrue (by obtain ⟨h1, h2, h3, h4⟩ := h; rw [h1, h2, h3, h4])
      else .isFalse (fun he => h (by cases he; exact ⟨rfl, rfl, rfl, rfl⟩))
  | .seqn st cs, .seqn st' cs' =>
      if hst : st = st' then
        match decEqNodeList cs cs' with
        | .isTrue h => .isTrue (by rw [hst, h])
        | .isFalse h => .isFalse (fun he => h (by cases he; rfl))
      else .isFalse (fun he => hst (by cases he; rfl))
  | .cat st cs, .cat st' cs' =>
      if hst : st = st' then
        match decEqNodeList cs cs' with
        | .isTrue h => .isTrue (by rw [hst, h])
        | .isFalse h => .isFalse (fun he => h (by cases he; rfl))
      else .isFalse (fun he => hst (by cases he; rfl))
  | .leaf _ _ _ _, .seqn _ _ => .isFalse (fun h => Node.noConfusion h)
  | .leaf _ _ _ _, .cat _ _ => .isFalse (fun h => Node.noConfusion h)
  | .seqn _ _, .leaf _ _ _ _ => .isFalse (fun h => Node.noConfusion h)
  | .seqn _ _, .cat _ _ => .isFalse (fun h => Node.noConfusion h)
  | .cat _ _, .leaf _ _ _ _ => .isFalse (fun h => Node.noConfusion h)
  | .cat _ _, .seqn _ _ => .isFalse (fun h => Node.noConfusion h)

/-- Decidable equality on lists of composition trees. -/
def decEqNodeList : (a b : List Node) → Decidable (a = b)
  | [], [] => .isTrue rfl
  | [], _ :: _ => .isFalse (fun h => List.noConfusion h)
  | _ :: _, [] => .isFalse (fun h => List.noConfusion h)
  | x :: xs, y :: ys =>
      match decEqNode x y, decEqNodeList xs ys with
      | .isTrue h1, .isTrue h2 => .isTrue (by rw [h1, h2])
      | .isFalse h1, _ => .isFalse (fun he => h1 (by cases he; rfl))
      | _, .isFalse h2 => .isFalse (fun he => h2 (by cases he; rfl))

end

instance : DecidableEq Node := decEqNode

/-- The lifecycle state of a node (shared field of all three kinds). -/
def Node.state : Node → NState
  | .leaf _ _ st _ => st
  | .seqn st _ => st
  | .cat st _ => st

/-- First-match lookup in an association list of kwargs / map entries. -/
def lookupAssoc : List (String × Lit) → String → Option Lit
  | [], _ => none
  | (k', v) :: es, k => if k' = k then some v else lookupAssoc es k

theorem lookupAssoc_mem {es : List (String × Lit)} {k : String} {v : Lit}
    (h : lookupAssoc es k = some v) : (k, v) ∈ es := by
  induction es with
  | nil => simp [lookupAssoc] at h
  | cons e es ih =>
    obtain ⟨k', w⟩ := e
    by_cases hk : k' = k
    · subst hk
      simp [lookupAssoc] at h
      simp [h]
    · simp [lookupAssoc, hk] at h
      exact List.mem_cons_of_mem _ (ih h)

mutual

/-- Path navigation (read) inside a stored schema literal, mirroring the
parser's structural rules (§4.1) as required by §4.2/§4.3 of the router
contract: map entries are entered by key, lists by zero-based index, and a
two-element `[identifier, mapping]` leaf pair by kwarg name. -/
def Lit.getP : Lit → List Seg → Option Lit
  | l, [] => some l
  | .map es, .name k :: rest => getAssocP es k rest
  | .list [.str _, .map kw], .name k :: rest => getAssocP kw k rest
  | .list xs, .idx i :: rest => getIdxP xs i rest
  | _, _ :: _ => none

/-- Read helper: enter an association list at a key, then continue. -/
def getAssocP : List (String × Lit) → String → List Seg → Option Lit
  | [], _, _ => none
  | (k', w) :: es, k, rest => if k' = k then w.getP rest else getAssocP es k rest

/-- Read helper: enter a list at a zero-based index, then continue. -/
def getIdxP : List Lit → Nat → List Seg → Option Lit
  | [], _, _ => none
  | x :: _, 0, rest => x.getP rest
  | _ :: xs, i + 1, rest => getIdxP xs i rest

end

mutual

/-- Path navigation (write) inside a stored schema literal: same structural
rules as `Lit.getP`, returning the updated literal, or the first unresolved
segment on failure (§4.2, §7). -/
def Lit.setP : Lit → List Seg → Lit → Except Seg Lit
  | _, [], v => .ok v
  | .map es, .name k :: rest, v => (setAssocP es k rest v).map .map
  | .list [.str s, .map kw], .name k :: rest, v =>
      (setAssocP kw k rest v).map (fun kw' => .list [.str s, .map kw'])
  | .list xs, .idx i :: rest, v => (setIdxP (.idx i) xs i rest v).map .list
  | _, seg :: _, _ => .error seg

/-- Write helper: update an association list at a key, then continue. -/
def setAssocP : List (String × Lit) → String → List Seg → Lit →
    Except Seg (List (String × Lit))
  | [], k, _, _ => .error (.name k)
  | (k', w) :: es, k, rest, v =>
      if k' = k then (w.setP rest v).map (fun w' => (k', w') :: es)
      else (setAssocP es k rest v).map ((k', w) :: ·)

/-- Write helper: update a list at a zero-based index, then continue.
`orig` is the index segment as written, reported on out-of-range. -/
def setIdxP (orig : Seg) : List Lit → Nat → List Seg → Lit →
    Except Seg (List Lit)
  | [], _, _, _ => .error orig
  | x :: xs, 0, rest, v => (x.setP rest v).map (· :: xs)
  | x :: xs, i + 1, rest, v => (setIdxP orig xs i rest v).map (x :: ·)

end

/-- Modelled from the spec (§4.1 rule 3): a "recognized single-key mapping"
is a one-entry mapping keyed `concat` or `transform`. -/
def isSingleKeyMapping : Lit → Bool
  | .map [(k, _)] => k = "concat" || k = "transform"
  | _ => false

mutual

/-- Modelled from the spec (§4.1): the schema parser.  Rules in fixed
precedence order: (1) a string is a Leaf with empty kwargs; (2) a two-element
`[identifier, mapping]` pair is a Leaf with those kwargs (nested schema
values are stored verbatim); (3) a list with more than one element, none of
which is a recognized single-key mapping, is a Sequential over the
element-wise parse; (4) `{"concat": [...]}` is a Concat over the parsed
list; (5) `{"transform": [...]}` is a Sequential over the parsed list.
Anything else is a `SchemaError` carrying the offending fragment.  Parsing
is purely structural: no backend lookup happens here (§4.3, §7). -/
def parse : Lit → Except TwError Node
  | .str s => .ok (.leaf s [] .Uninitialized none)
  | .list [.str s, .map kw] => .ok (.leaf s kw .Uninitialized none)
  | .list xs =>
      if xs.length > 1 ∧ xs.all (fun x => !isSingleKeyMapping x) then
        (parseList xs).map (.seqn .Uninitialized)
      else .error (.schemaError (.list xs))
  | .map [("concat", .list ls)] => (parseList ls).map (.cat .Uninitialized)
  | .map [("transform", .list ls)] => (parseList ls).map (.seqn .Uninitialized)
  | l => .error (.schemaError l)

/-- Element-wise parse of a schema list, failing on the first bad element. -/
def parseList : List Lit → Except TwError (List Node)
  | [] => .ok []
  | x :: xs => do
      let n ← parse x
      let ns ← parseList xs
      .ok (n :: ns)

end

mutual

/-- Modelled from the spec (§4.2): single-path read over the composition
tree.  A Leaf is entered at a kwarg name (descending further into a nested
schema literal when the path continues); a Sequential child is addressed by
the slot `transform` and its zero-based index, a Concat child by the slot
`concat` and its index. -/
def Node.getP : Node → List Seg → Option Lit
  | .leaf _ kw _ _, .name k :: rest => getAssocP kw k rest
  | .seqn _ cs, .name "transform" :: .idx i :: rest => getChildP cs i rest
  | .cat _ cs, .name "concat" :: .idx i :: rest => getChildP cs i rest
  | _, _ => none

/-- Read helper: enter the i-th child, then continue. -/
def getChildP : List Node → Nat → List Seg → Option Lit
  | [], _, _ => none
  | c :: _, 0, rest => c.getP rest
  | _ :: cs, i + 1, rest => getChildP cs i rest

end

mutual

/-- Modelled from the spec (§4.2, §4.3): single-path write over the
composition tree, with the invalidation rule: when the write actually
changes a kwarg of a `Constructed`/`Fitted` Leaf, that Leaf (and only it)
is reset to `Uninitialized` and its backend instance dropped, forcing a
rebuild with the new kwargs on next use; writing back the value already
stored changes nothing and resets nothing (the path round-trip of §8.2 is
a no-op).  An unresolvable path reports its first unresolved segment. -/
def Node.updatePath : Node → List Seg → Lit → Except Seg Node
  | .leaf n kw st inst, .name k :: rest, v =>
      match setAssocP kw k rest v with
      | .error s => .error s
      | .ok kw' =>
          if kw' = kw then .ok (.leaf n kw st inst)
          else .ok (.leaf n kw' .Uninitialized none)
  | .seqn st cs, .name "transform" :: .idx i :: rest, v =>
      (updateChildP (.idx i) cs i rest v).map (.seqn st)
  | .cat st cs, .name "concat" :: .idx i :: rest, v =>
      (updateChildP (.idx i) cs i rest v).map (.cat st)
  | _, [], _ => .error (.name "")
  | _, seg :: _, _ => .error seg

/-- Write helper: update the i-th child, then continue.  `orig` is the
index segment as written, reported on out-of-range. -/
def updateChildP (orig : Seg) : List Node → Nat → List Seg → Lit →
    Except Seg (List Node)
  | [], _, _, _ => .error orig
  | c :: cs, 0, rest, v => (c.updatePath rest v).map (· :: cs)
  | c :: cs, i + 1, rest, v => (updateChildP orig cs i rest v).map (c :: ·)

end

mutual

/-- Modelled from the spec (§4.2): `get_params` flattens the tree into a
mapping from full paths to values; every Leaf kwarg is emitted with its
accumulated path (nested schema literals are emitted verbatim as a single
value), and each Sequential/Concat child is visited under its slot name and
zero-based index. -/
def Node.get_params : Node → List (List Seg × Lit)
  | .leaf _ kw _ _ => kw.map (fun kv => ([Seg.name kv.1], kv.2))
  | .seqn _ cs =>
      (childParams cs 0).map (fun pv => (Seg.name "transform" :: pv.1, pv.2))
  | .cat _ cs =>
      (childParams cs 0).map (fun pv => (Seg.name "concat" :: pv.1, pv.2))

/-- Flatten helper: child i (counting from `i0`) contributes its params
under the extra leading segment `idx i`. -/
def childParams : List Node → Nat → List (List Seg × Lit)
  | [], _ => []
  | c :: cs, i =>
      c.get_params.map (fun pv => (Seg.idx i :: pv.1, pv.2)) ++ childParams cs (i + 1)

end

/-- Modelled from the spec (§4.2, §7): batch `set_params`, validate-before-
apply.  Every path of the batch is first resolved against the (unmutated)
tree; the first path that fails rejects the whole batch with a
`ParameterPathError` naming it and its first unresolved segment, and no
mutation is applied.  Only when all paths validate is the batch applied in
order. -/
def Node.set_params (t : Node) (ps : List (List Seg × Lit)) :
    Except TwError Node :=
  match ps.findSome? (fun pv =>
      match t.updatePath pv.1 pv.2 with
      | .ok _ => none
      | .error seg => some (pv.1, seg)) with
  | some (p, seg) => .error (.paramPath p seg)
  | none => .ok (ps.foldl (fun acc pv =>
      match acc.updatePath pv.1 pv.2 with
      | .ok t' => t'
      | .error _ => acc) t)

mutual

/-- Structural address of a node: the list of child indices from the root. -/
def Node.nodeAt : Node → List Nat → Option Node
  | t, [] => some t
  | .seqn _ cs, i :: q => nodeChildAt cs i q
  | .cat _ cs, i :: q => nodeChildAt cs i q
  | .leaf _ _ _ _, _ :: _ => none

/-- Address helper: enter the i-th child, then continue. -/
def nodeChildAt : List Node → Nat → List Nat → Option Node
  | [], _, _ => none
  | c :: _, 0, q => c.nodeAt q
  | _ :: cs, i + 1, q => nodeChildAt cs i q

end

mutual

/-- The structural address of the Leaf targeted by a (fully resolving)
kwarg path: the child indices walked before entering the Leaf's kwargs. -/
def Node.targetOf : Node → List Seg → Option (List Nat)
  | .leaf _ kw _ _, .name k :: rest => (getAssocP kw k rest).map (fun _ => [])
  | .seqn _ cs, .name "transform" :: .idx i :: rest => targetChildOf i cs i rest
  | .cat _ cs, .name "concat" :: .idx i :: rest => targetChildOf i cs i rest
  | _, _ => none

/-- Target helper: walk to the i-th child, recording the original index. -/
def targetChildOf (orig : Nat) : List Node → Nat → List Seg → Option (List Nat)
  | [], _, _ => none
  | c :: _, 0, rest => (c.targetOf rest).map (orig :: ·)
  | _ :: cs, i + 1, rest => targetChildOf orig cs i rest

end

/-- Modelled from the spec (§4.2 and the notebook's sklearn pipelines): the
top-level pipeline object, holding the `embedding` slot and the ordered
`transformations` slot addressed by the paths `embedding__...` and
`transformations__i__...`. -/
structure TWiser where
  embedding : Node
  transformations : List Node
deriving DecidableEq

/-- Single-path read at the pipeline level. -/
def TWiser.getP : TWiser → List Seg → Option Lit
  | tw, .name "embedding" :: rest => tw.embedding.getP rest
  | tw, .name "transformations" :: .idx i :: rest =>
      getChildP tw.transformations i rest
  | _, _ => none

/-- Single-path write at the pipeline level. -/
def TWiser.updatePath : TWiser → List Seg → Lit → Except Seg TWiser
  | tw, .name "embedding" :: rest, v =>
      (tw.embedding.updatePath rest v).map (fun e => { tw with embedding := e })
  | tw, .name "transformations" :: .idx i :: rest, v =>
      (updateChildP (.idx i) tw.transformations i rest v).map
        (fun ts => { tw with transformations := ts })
  | _, [], _ => .error (.name "")
  | _, seg :: _, _ => .error seg

/-- Batch `set_params` at the pipeline level: validate-before-apply, as for
`Node.set_params`. -/
def TWiser.set_params (tw : TWiser) (ps : List (List Seg × Lit)) :
    Except TwError TWiser :=
  match ps.findSome? (fun pv =>
      match tw.updatePath pv.1 pv.2 with
      | .ok _ => none
      | .error seg => some (pv.1, seg)) with
  | some (p, seg) => .error (.paramPath p seg)
  | none => .ok (ps.foldl (fun acc pv =>
      match acc.updatePath pv.1 pv.2 with
      | .ok tw' => tw'
      | .error _ => acc) tw)

/-- Feature data: a matrix, one row per input, entries abstracted to `Int`
(the numerical content of backends is out of scope, §1). -/
abbrev Data := List (List Int)

/-- Modelled from the spec (§6 "Backend registry", §4.4): the external
collaborators, as a pure lookup table.  `known` is registry membership;
`transform` is the (opaque, total) fit-transform behavior of the backend a
Leaf resolves to, given its name and kwargs. -/
structure Env where
  known : String → Bool
  transform : String → List (String × Lit) → Data → Data

/-- Concatenate matrices along the feature dimension (row-wise append), in
list order — the Concat combination rule (§4.4). -/
def hconcat : List Data → Data
  | [] => []
  | [d] => d
  | d :: ds => d.zipWith (· ++ ·) (hconcat ds)

mutual

/-- Modelled from the spec (§4.3, §4.4): `fit_transform` over the tree.
A Leaf resolves its backend name in the registry — failing with
`UnknownBackendError` at this first use if unknown (never at parse time) —
runs the backend on the data, and becomes `Fitted` with a live backend
instance.  A Sequential threads the output of child i into child i+1; a
Concat runs every child on the same input and concatenates the results
along the feature dimension in child order. -/
def Node.fit_transform (env : Env) : Node → Data → Except TwError (Data × Node)
  | .leaf n kw _ _, d =>
      if env.known n then .ok (env.transform n kw d, .leaf n kw .Fitted (some n))
      else .error (.unknownBackend n)
  | .seqn _ cs, d =>
      match seqFT env cs d with
      | .ok (out, cs') => .ok (out, .seqn .Fitted cs')
      | .error e => .error e
  | .cat _ cs, d =>
      match catFT env cs d with
      | .ok (outs, cs') => .ok (hconcat outs, .cat .Fitted cs')
      | .error e => .error e

/-- Sequential threading: child i's output is child i+1's input. -/
def seqFT (env : Env) : List Node → Data → Except TwError (Data × List Node)
  | [], d => .ok (d, [])
  | c :: cs, d =>
      match c.fit_transform env d with
      | .ok (d', c') =>
          match seqFT env cs d' with
          | .ok (out, cs') => .ok (out, c' :: cs')
          | .error e => .error e
      | .error e => .error e

/-- Concat fan-out: every child consumes the same input. -/
def catFT (env : Env) : List Node → Data → Except TwError (List Data × List Node)
  | [], _ => .ok ([], [])
  | c :: cs, d =>
      match c.fit_transform env d with
      | .ok (out, c') =>
          match catFT env cs d with
          | .ok (outs, cs') => .ok (out :: outs, c' :: cs')
          | .error e => .error e
      | .error e => .error e

end

/-- Modelled from the spec (§4.4): `fit` is implemented through
`fit_transform`, discarding the final output, so that every child sees
correctly-shaped training data. -/
def Node.fit (env : Env) (t : Node) (d : Data) : Except TwError Node :=
  (t.fit_transform env d).map Prod.snd

mutual

/-- Modelled from the spec (§4.4): `transform` ensures each reached node is
at least `Constructed` (instantiating the backend on first use, failing
with `UnknownBackendError` if the name is unknown) and delegates to the
backend without re-fitting; already-constructed state is kept. -/
def Node.transformOp (env : Env) : Node → Data → Except TwError (Data × Node)
  | .leaf n kw st inst, d =>
      if env.known n then
        .ok (env.transform n kw d,
             .leaf n kw (if st = .Uninitialized then .Constructed else st)
               (if st = .Uninitialized then some n else inst))
      else .error (.unknownBackend n)
  | .seqn st cs, d =>
      match seqTR env cs d with
      | .ok (out, cs') =>
          .ok (out, .seqn (if st = .Uninitialized then .Constructed else st) cs')
      | .error e => .error e
  | .cat st cs, d =>
      match catTR env cs d with
      | .ok (outs, cs') =>
          .ok (hconcat outs, .cat (if st = .Uninitialized then .Constructed else st) cs')
      | .error e => .error e

/-- Sequential threading for `transform`. -/
def seqTR (env : Env) : List Node → Data → Except TwError (Data × List Node)
  | [], d => .ok (d, [])
  | c :: cs, d =>
      match c.transformOp env d with
      | .ok (d', c') =>
          match seqTR env cs d' with
          | .ok (out, cs') => .ok (out, c' :: cs')
          | .error e => .error e
      | .error e => .error e

/-- Concat fan-out for `transform`. -/
def catTR (env : Env) : List Node → Data → Except TwError (List Data × List Node)
  | [], _ => .ok ([], [])
  | c :: cs, d =>
      match c.transformOp env d with
      | .ok (out, c') =>
          match catTR env cs d with
          | .ok (outs, cs') => .ok (out :: outs, c' :: cs')
          | .error e => .error e
      | .error e => .error e

end

mutual

/-- Every node of the tree is `Uninitialized` and no Leaf holds a backend
instance — the state of a freshly parsed tree (§4.3 lazy deferral). -/
def Node.allUninit : Node → Bool
  | .leaf _ _ st inst => st = NState.Uninitialized && inst = none
  | .seqn st cs => st = NState.Uninitialized && allUninitList cs
  | .cat st cs => st = NState.Uninitialized && allUninitList cs

/-- List form of `Node.allUninit`. -/
def allUninitList : List Node → Bool
  | [] => true
  | c :: cs => c.allUninit && allUninitList cs

end

mutual

/-- The lazy-state invariant (§3): at every Leaf,
`backend_instance is not None` iff `state != Uninitialized`. -/
def Node.wfInv : Node → Bool
  | .leaf _ _ st inst => inst.isSome = decide (st ≠ NState.Uninitialized)
  | .seqn _ cs => wfInvList cs
  | .cat _ cs => wfInvList cs

/-- List form of `Node.wfInv`. -/
def wfInvList : List Node → Bool
  | [] => true
  | c :: cs => c.wfInv && wfInvList cs

end

/-- Keys of an association list are pairwise distinct. -/
def nodupKeys : List (String × Lit) → Bool
  | [] => true
  | (k, _) :: es => !(es.any (fun e => e.1 = k)) && nodupKeys es

mutual

/-- Every Leaf's kwargs mapping has pairwise-distinct keys (kwargs are a
mapping, §3). -/
def Node.kwNodup : Node → Bool
  | .leaf _ kw _ _ => nodupKeys kw
  | .seqn _ cs => kwNodupList cs
  | .cat _ cs => kwNodupList cs

/-- List form of `Node.kwNodup`. -/
def kwNodupList : List Node → Bool
  | [] => true
  | c :: cs => c.kwNodup && kwNodupList cs

end

mutual

/-- The configuration content of a tree: same structure, names and kwargs,
with lifecycle state and backend instances erased.  Two trees with equal
`stripConfig` hold the very same schema/kwarg data. -/
def Node.stripConfig : Node → Node
  | .leaf n kw _ _ => .leaf n kw .Uninitialized none
  | .seqn _ cs => .seqn .Uninitialized (stripConfigList cs)
  | .cat _ cs => .cat .Uninitialized (stripConfigList cs)

/-- List form of `Node.stripConfig`. -/
def stripConfigList : List Node → List Node
  | [] => []
  | c :: cs => c.stripConfig :: stripConfigList cs

end

/-- `d` is an `m × w` matrix: `m` rows, each of width `w`. -/
def HasShape (d : Data) (m w : Nat) : Prop :=
  d.length = m ∧ ∀ r ∈ d, r.length = w

instance (d : Data) (m w : Nat) : Decidable (HasShape d m w) := by
  unfold HasShape; infer_instance

/-! ## Concrete artifacts from the repository's notebook, and a small
backend environment used to exercise the executor -/

/-- The compound schema defined in the model-selection notebook (cell 9). -/
def nbSchema : Lit := .map [("transform", .list [
  .map [("concat", .list [
     .map [("transform", .list [.list [.str "word2vec", .map [("pretrained", .str "en")]], .str "pool"])],
     .map [("transform", .list [.str "tfidf", .list [.str "nmf", .map [("n_components", .num 30)]]])]
  ])],
  .str "svd"])]

/-- `nbSchema` with the nmf Leaf's `n_components` replaced by 5. -/
def nbSchema5 : Lit := .map [("transform", .list [
  .map [("concat", .list [
     .map [("transform", .list [.list [.str "word2vec", .map [("pretrained", .str "en")]], .str "pool"])],
     .map [("transform", .list [.str "tfidf", .list [.str "nmf", .map [("n_components", .num 5)]]])]
  ])],
  .str "svd"])]

/-- The hyperparameter path used on the compound pipeline in the notebook
(cell 11), as a segment list. -/
def nbPath : List Seg :=
  [.name "embedding", .name "schema", .name "transform", .idx 0, .name "concat",
   .idx 1, .name "transform", .idx 1, .name "n_components"]

/-- The notebook's compound pipeline: a Compound embedding Leaf carrying the
schema literal verbatim as its `schema` kwarg, no extra transformations. -/
def nbPipe : TWiser :=
  { embedding := .leaf "compound" [("schema", nbSchema)] .Uninitialized none
    transformations := [] }

/-- `nbPipe` after writing 5 through `nbPath`. -/
def nbPipe5 : TWiser :=
  { embedding := .leaf "compound" [("schema", nbSchema5)] .Uninitialized none
    transformations := [] }

/-- A small concrete backend environment: tfidf produces 3 features per row,
every other known backend 2; `not_a_real_embedding` is absent. -/
def exEnv : Env :=
  { known := fun n => n ∈ ["tfidf", "nmf", "svd", "word2vec", "pool", "compound"]
    transform := fun n _ d => d.map (fun _ => List.replicate (if n = "tfidf" then 3 else 2) 0) }

/-- A fitted two-stage chain `nmf → svd` with a kwarg on the first stage. -/
def exFittedSeq : Node :=
  .seqn .Fitted
    [.leaf "nmf" [("n_components", .num 30)] .Fitted (some "nmf"),
     .leaf "svd" [] .Fitted (some "svd")]

/-- Path to the nmf Leaf's `n_components` inside `exFittedSeq`
(child index 0). -/
def exPathNmf0 : List Seg := [.name "transform", .idx 0, .name "n_components"]

/-- `exFittedSeq` after writing 12 through `exPathNmf0`: only the nmf Leaf
is reset. -/
def exFittedSeqReset : Node :=
  .seqn .Fitted
    [.leaf "nmf" [("n_components", .num 12)] .Uninitialized none,
     .leaf "svd" [] .Fitted (some "svd")]

/-- An out-of-range path: `exFittedSeq` has only 2 children. -/
def exBadPath : List Seg := [.name "transform", .idx 5, .name "n_components"]

/-- The spec's §8.1 example schema `["tfidf", ["nmf", {"n_components": 30}]]`. -/
def exLit : Lit := .list [.str "tfidf", .list [.str "nmf", .map [("n_components", .num 30)]]]

/-- `parse exLit`: a fresh two-stage chain `tfidf → nmf`. -/
def exSeq2 : Node :=
  .seqn .Uninitialized
    [.leaf "tfidf" [] .Uninitialized none,
     .leaf "nmf" [("n_components", .num 30)] .Uninitialized none]

/-- `exSeq2` after a full `fit_transform` under `exEnv`. -/
def exSeq2Fitted : Node :=
  .seqn .Fitted
    [.leaf "tfidf" [] .Fitted (some "tfidf"),
     .leaf "nmf" [("n_components", .num 30)] .Fitted (some "nmf")]

/-- Path to the nmf Leaf's `n_components` inside `exSeq2` (child index 1). -/
def exPathNmf1 : List Seg := [.name "transform", .idx 1, .name "n_components"]

/-- `exSeq2` after writing 7 through `exPathNmf1` (still fully lazy). -/
def exSeq2Upd7 : Node :=
  .seqn .Uninitialized
    [.leaf "tfidf" [] .Uninitialized none,
     .leaf "nmf" [("n_components", .num 7)] .Uninitialized none]

/-- The notebook's compound Leaf on its own. -/
def nbCompound : Node := .leaf "compound" [("schema", nbSchema)] .Uninitialized none

/-! ## Router lemmas: reading and writing literal paths -/

theorem lit_setP_self :
    ∀ (l : Lit) (p : List Seg) (w : Lit), l.getP p = some w → l.setP p w = .ok l := by
  refine Lit.getP.induct
    (fun l p => ∀ w, l.getP p = some w → l.setP p w = .ok l)
    (fun xs i rest => ∀ w orig, getIdxP xs i rest = some w →
      setIdxP orig xs i rest w = .ok xs)
    (fun es k rest => ∀ w, getAssocP es k rest = some w →
      setAssocP es k rest w = .ok es)
    ?_ ?_ ?_ ?_ ?_ ?_ ?_ ?_ ?_ ?_ ?_
  · intro l w h
    simp [Lit.getP] at h
    simp [Lit.setP, h]
  · intro es k rest ih w h
    simp only [Lit.getP] at h
    simp only [Lit.setP, ih w h]
    rfl
  · intro s kw k rest ih w h
    simp only [Lit.getP] at h
    simp only [Lit.setP, ih w h]
    rfl
  · intro xs i rest ih w h
    rw [Lit.getP.eq_4] at h
    rw [Lit.setP.eq_4, ih w (.idx i) h]
    rfl
  · intro t hd tl h1 h2 h3 w h
    exfalso
    rw [Lit.getP.eq_def] at h
    split at h
    next => exact List.noConfusion (show hd :: tl = ([] : List Seg) by assumption)
    next => rename_i es k rest heq
            exact h1 es k rfl (by injection heq)
    next => rename_i s kw k rest heq
            exact h2 s kw k rfl (by injection heq)
    next => rename_i xs i rest heq
            exact h3 xs i rfl (by injection heq)
    next => exact Option.noConfusion h
  · intro i rest w orig h
    simp [getIdxP] at h
  · intro x tail rest ih w orig h
    simp only [getIdxP] at h
    simp only [setIdxP, ih w h]
    rfl
  · intro hd xs i rest ih w orig h
    simp only [getIdxP] at h
    simp only [setIdxP, ih w orig h]
    rfl
  · intro k rest w h
    simp [getAssocP] at h
  · intro v es k rest ih w h
    simp only [getAssocP, if_pos rfl] at h
    simp only [setAssocP, if_pos rfl, ih w h]
    rfl
  · intro k' v es k rest hk ih w h
    simp only [getAssocP, if_neg hk] at h
    simp only [setAssocP, if_neg hk, ih w h]
    rfl

theorem lit_setP_of_getP :
    ∀ (l : Lit) (p : List Seg) (old v : Lit), l.getP p = some old →
      ∃ l', l.setP p v = .ok l' ∧ l'.getP p = some v := by
  refine Lit.getP.induct
    (fun l p => ∀ old v, l.getP p = some old →
      ∃ l', l.setP p v = .ok l' ∧ l'.getP p = some v)
    (fun xs i rest => ∀ old v orig, getIdxP xs i rest = some old →
      ∃ xs', setIdxP orig xs i rest v = .ok xs' ∧ getIdxP xs' i rest = some v)
    (fun es k rest => ∀ old v, getAssocP es k rest = some old →
      ∃ es', setAssocP es k rest v = .ok es' ∧ getAssocP es' k rest = some v)
    ?_ ?_ ?_ ?_ ?_ ?_ ?_ ?_ ?_ ?_ ?_
  · intro l old v _
    exact ⟨v, by rw [Lit.setP.eq_1], by rw [Lit.getP.eq_1]⟩
  · intro es k rest ih old v h
    rw [Lit.getP.eq_2] at h
    obtain ⟨es', hset, hget⟩ := ih old v h
    exact ⟨.map es', by rw [Lit.setP.eq_2, hset]; rfl, by rw [Lit.getP.eq_2]; exact hget⟩
  · intro s kw k rest ih old v h
    rw [Lit.getP.eq_3] at h
    obtain ⟨kw', hset, hget⟩ := ih old v h
    exact ⟨.list [.str s, .map kw'], by rw [Lit.setP.eq_3, hset]; rfl,
      by rw [Lit.getP.eq_3]; exact hget⟩
  · intro xs i rest ih old v h
    rw [Lit.getP.eq_4] at h
    obtain ⟨xs', hset, hget⟩ := ih old v (.idx i) h
    exact ⟨.list xs', by rw [Lit.setP.eq_4, hset]; rfl, by rw [Lit.getP.eq_4]; exact hget⟩
  · intro t hd tl h1 h2 h3 old v h
    exfalso
    rw [Lit.getP.eq_def] at h
    split at h
    next => exact List.noConfusion (show hd :: tl = ([] : List Seg) by assumption)
    next => rename_i es k rest heq
            exact h1 es k rfl (by injection heq)
    next => rename_i s kw k rest heq
            exact h2 s kw k rfl (by injection heq)
    next => rename_i xs i rest heq
            exact h3 xs i rfl (by injection heq)
    next => exact Option.noConfusion h
  · intro i rest old v orig h
    simp [getIdxP] at h
  · intro x tail rest ih old v orig h
    simp only [getIdxP] at h
    obtain ⟨x', hset, hget⟩ := ih old v h
    exact ⟨x' :: tail, by simp only [setIdxP, hset]; rfl, by simp only [getIdxP]; exact hget⟩
  · intro hd xs i rest ih old v orig h
    simp only [getIdxP] at h
    obtain ⟨xs', hset, hget⟩ := ih old v orig h
    exact ⟨hd :: xs', by simp only [setIdxP, hset]; rfl, by simp only [getIdxP]; exact hget⟩
  · intro k rest old v h
    simp [getAssocP] at h
  · intro w es k rest ih old v h
    simp only [getAssocP, if_pos rfl] at h
    obtain ⟨w', hset, hget⟩ := ih old v h
    exact ⟨(k, w') :: es, by simp only [setAssocP, if_pos rfl, hset]; rfl,
      by simp only [getAssocP, if_pos rfl]; exact hget⟩
  · intro k' w es k rest hk ih old v h
    simp only [getAssocP, if_neg hk] at h
    obtain ⟨es', hset, hget⟩ := ih old v h
    exact ⟨(k', w) :: es', by simp only [setAssocP, if_neg hk, hset]; rfl,
      by simp only [getAssocP, if_neg hk]; exact hget⟩

/-- Assoc-level form of `lit_setP_self`: writing back the value a kwarg
path currently reads leaves the association list unchanged. -/
theorem setAssocP_self {es : List (String × Lit)} {k : String} {rest : List Seg}
    {w : Lit} (h : getAssocP es k rest = some w) : setAssocP es k rest w = .ok es := by
  induction es with
  | nil => simp [getAssocP] at h
  | cons e es ih =>
    obtain ⟨k', x⟩ := e
    by_cases hk : k' = k
    · subst hk
      simp only [getAssocP, if_pos rfl] at h
      simp only [setAssocP, if_pos rfl, lit_setP_self x rest w h]
      rfl
    · simp only [getAssocP, if_neg hk] at h
      simp only [setAssocP, if_neg hk, ih h]
      rfl

/-- Assoc-level form of `lit_setP_of_getP`. -/
theorem setAssocP_of_getAssocP {es : List (String × Lit)} {k : String}
    {rest : List Seg} {old : Lit} (v : Lit) (h : getAssocP es k rest = some old) :
    ∃ es', setAssocP es k rest v = .ok es' ∧ getAssocP es' k rest = some v := by
  induction es with
  | nil => simp [getAssocP] at h
  | cons e es ih =>
    obtain ⟨k', x⟩ := e
    by_cases hk : k' = k
    · subst hk
      simp only [getAssocP, if_pos rfl] at h
      obtain ⟨x', hset, hget⟩ := lit_setP_of_getP x rest old v h
      exact ⟨(k', x') :: es, by simp only [setAssocP, if_pos rfl, hset]; rfl,
        by simp only [getAssocP, if_pos rfl]; exact hget⟩
    · simp only [getAssocP, if_neg hk] at h
      obtain ⟨es', hset, hget⟩ := ih h
      exact ⟨(k', x) :: es', by simp only [setAssocP, if_neg hk, hset]; rfl,
        by simp only [getAssocP, if_neg hk]; exact hget⟩

/-- With pairwise-distinct keys, membership determines the kwarg read. -/
theorem getAssocP_nil_of_mem {es : List (String × Lit)} {k : String} {v : Lit}
    (hnd : nodupKeys es = true) (hmem : (k, v) ∈ es) :
    getAssocP es k [] = some v := by
  induction es with
  | nil => simp at hmem
  | cons e es ih =>
    obtain ⟨k', x⟩ := e
    simp only [nodupKeys, Bool.and_eq_true, Bool.not_eq_true'] at hnd
    rcases List.mem_cons.mp hmem with heq | hmem'
    · cases heq
      simp [getAssocP, Lit.getP]
    · have hk : ¬ k' = k := by
        intro hk
        subst hk
        have : es.any (fun e => e.1 = k') = true :=
          List.any_eq_true.mpr ⟨(k', v), hmem', by simp⟩
        rw [this] at hnd
        exact Bool.noConfusion hnd.1
      simp only [getAssocP, if_neg hk]
      exact ih hnd.2 hmem'

/-! ## Round-trip: writing back every emitted parameter is the identity -/

/-- Every path emitted under a child slot starts with an index segment. -/
theorem childParams_head_idx {cs : List Node} {i : Nat} {q : List Seg} {v : Lit}
    (h : (q, v) ∈ childParams cs i) : ∃ j p, q = Seg.idx j :: p := by
  induction cs generalizing i with
  | nil => rw [childParams.eq_1] at h; exact absurd h (List.not_mem_nil _)
  | cons c cs ih =>
    rw [childParams.eq_2] at h
    rcases List.mem_append.mp h with hl | hr
    · simp only [List.mem_map] at hl
      obtain ⟨⟨p, w⟩, _, heq⟩ := hl
      have := Prod.mk.injEq .. ▸ heq
      exact ⟨i, p, this.1.symm⟩
    · exact ih hr

/-- Writing back any path/value pair emitted by `get_params` leaves the
tree unchanged and resets nothing (the value written equals the value
stored, so the invalidation rule does not fire). -/
theorem updatePath_get_params_self :
    ∀ t : Node, t.kwNodup = true →
      ∀ pv ∈ t.get_params, t.updatePath pv.1 pv.2 = .ok t := by
  refine Node.get_params.induct
    (fun t => t.kwNodup = true → ∀ pv ∈ t.get_params, t.updatePath pv.1 pv.2 = .ok t)
    (fun cs i => kwNodupList cs = true →
      ∀ j p v, (Seg.idx j :: p, v) ∈ childParams cs i →
        ∀ orig, i ≤ j ∧ updateChildP orig cs (j - i) p v = .ok cs)
    ?_ ?_ ?_ ?_ ?_
  · intro n kw st inst hnd pv hmem
    simp only [Node.get_params, List.mem_map] at hmem
    obtain ⟨⟨k, v⟩, hkv, hpv⟩ := hmem
    subst hpv
    simp only [Node.kwNodup] at hnd
    have hget : getAssocP kw k [] = some v := getAssocP_nil_of_mem hnd hkv
    rw [Node.updatePath.eq_1, setAssocP_self hget]
    simp
  · intro st cs ih hnd pv hmem
    simp only [Node.get_params, List.mem_map] at hmem
    obtain ⟨⟨q, v⟩, hq, hpv⟩ := hmem
    subst hpv
    simp only [Node.kwNodup] at hnd
    match q, hq with
    | Seg.idx j :: p, hq =>
      have := (ih hnd j p v hq (Seg.idx j)).2
      rw [Nat.sub_zero] at this
      rw [Node.updatePath.eq_2, this]
      rfl
    | [], hq => exact absurd (childParams_head_idx hq) (by simp)
    | Seg.name s :: p, hq => exact absurd (childParams_head_idx hq) (by simp)
  · intro st cs ih hnd pv hmem
    simp only [Node.get_params, List.mem_map] at hmem
    obtain ⟨⟨q, v⟩, hq, hpv⟩ := hmem
    subst hpv
    simp only [Node.kwNodup] at hnd
    match q, hq with
    | Seg.idx j :: p, hq =>
      have := (ih hnd j p v hq (Seg.idx j)).2
      rw [Nat.sub_zero] at this
      rw [Node.updatePath.eq_3, this]
      rfl
    | [], hq => exact absurd (childParams_head_idx hq) (by simp)
    | Seg.name s :: p, hq => exact absurd (childParams_head_idx hq) (by simp)
  · intro i _ j p v hmem
    rw [childParams.eq_1] at hmem
    exact absurd hmem (List.not_mem_nil _)
  · intro c cs i ihc ihcs hnd j p v hmem orig
    simp only [kwNodupList, Bool.and_eq_true] at hnd
    rw [childParams.eq_2] at hmem
    rcases List.mem_append.mp hmem with hl | hr
    · simp only [List.mem_map] at hl
      obtain ⟨⟨q, w⟩, hq, heq⟩ := hl
      obtain ⟨h1, h2, h3⟩ : Seg.idx i = Seg.idx j ∧ q = p ∧ w = v := by
        have := Prod.mk.injEq .. ▸ heq
        exact ⟨List.head_eq_of_cons_eq this.1, List.tail_eq_of_cons_eq this.1, this.2⟩
      obtain rfl : i = j := by injection h1
      subst h2; subst h3
      refine ⟨Nat.le_refl i, ?_⟩
      rw [Nat.sub_self]
      simp only [updateChildP, ihc hnd.1 (q, w) hq]
      rfl
    · obtain ⟨hle, hupd⟩ := ihcs hnd.2 j p v hr orig
      refine ⟨Nat.le_of_succ_le hle, ?_⟩
      have hsub : j - i = (j - (i + 1)) + 1 := by omega
      rw [hsub]
      simp only [updateChildP, hupd]
      rfl

theorem findSome?_eq_none_of_all {α β : Type} {l : List α} {f : α → Option β}
    (h : ∀ x ∈ l, f x = none) : l.findSome? f = none := by
  induction l with
  | nil => rfl
  | cons x l ih =>
    rw [List.findSome?_cons, h x (List.mem_cons_self x l)]
    exact ih (fun y hy => h y (List.mem_cons_of_mem x hy))

theorem foldl_eq_self {α β : Type} {l : List β} {g : α → β → α} {a : α}
    (h : ∀ x ∈ l, g a x = a) : l.foldl g a = a := by
  induction l with
  | nil => rfl
  | cons x l ih =>
    rw [List.foldl_cons, h x (List.mem_cons_self x l)]
    exact ih (fun y hy => h y (List.mem_cons_of_mem x hy))

/-- A batch in which every single write is a no-op on `t` is accepted and
returns `t` unchanged. -/
theorem set_params_of_all_self {t : Node} {ps : List (List Seg × Lit)}
    (h : ∀ pv ∈ ps, t.updatePath pv.1 pv.2 = .ok t) : t.set_params ps = .ok t := by
  have hnone : (ps.findSome? fun pv =>
      match t.updatePath pv.1 pv.2 with
      | .ok _ => none
      | .error seg => some (pv.1, seg)) = none := by
    apply findSome?_eq_none_of_all
    intro pv hpv
    rw [h pv hpv]
  have hfold : ps.foldl (fun acc pv =>
      match acc.updatePath pv.1 pv.2 with
      | .ok t' => t'
      | .error _ => acc) t = t := by
    apply foldl_eq_self
    intro pv hpv
    rw [h pv hpv]
  unfold Node.set_params
  rw [hnone, hfold]

/-! ## Invalidation frame: a changing write resets exactly the target Leaf -/

theorem updatePath_frame :
    ∀ (t : Node) (segs : List Seg), ∀ (old v : Lit) (q : List Nat),
      t.getP segs = some old → t.targetOf segs = some q → v ≠ old →
      ∃ t', t.updatePath segs v = .ok t' ∧
        (∃ n kw, t'.nodeAt q = some (.leaf n kw .Uninitialized none)) ∧
        (∀ q', q' ≠ q →
          (t'.nodeAt q').map Node.state = (t.nodeAt q').map Node.state) := by
  refine Node.getP.induct
    (fun t segs => ∀ (old v : Lit) (q : List Nat),
      t.getP segs = some old → t.targetOf segs = some q → v ≠ old →
      ∃ t', t.updatePath segs v = .ok t' ∧
        (∃ n kw, t'.nodeAt q = some (.leaf n kw .Uninitialized none)) ∧
        (∀ q', q' ≠ q →
          (t'.nodeAt q').map Node.state = (t.nodeAt q').map Node.state))
    (fun cs i rest => ∀ (old v : Lit) (qq : List Nat) (orig : Nat),
      getChildP cs i rest = some old → targetChildOf orig cs i rest = some qq →
      v ≠ old →
      ∃ sub cs', qq = orig :: sub ∧
        (∀ oseg, updateChildP oseg cs i rest v = .ok cs') ∧
        (∃ n kw, nodeChildAt cs' i sub = some (.leaf n kw .Uninitialized none)) ∧
        (∀ j' qr, ¬(j' = i ∧ qr = sub) →
          (nodeChildAt cs' j' qr).map Node.state =
            (nodeChildAt cs j' qr).map Node.state))
    ?_ ?_ ?_ ?_ ?_ ?_ ?_
  · intro n kw st inst k rest old v q hget htgt hne
    rw [Node.getP.eq_1] at hget
    rw [Node.targetOf.eq_1, hget] at htgt
    obtain rfl : q = [] := by
      simpa using htgt.symm
    obtain ⟨kw', hset, hget'⟩ := setAssocP_of_getAssocP v hget
    have hkw : kw' ≠ kw := by
      intro hkw
      rw [hkw, hget] at hget'
      refine hne ?_
      injection hget' with h
      exact h.symm
    refine ⟨.leaf n kw' .Uninitialized none, ?_, ⟨n, kw', by rw [Node.nodeAt.eq_1]⟩, ?_⟩
    · rw [Node.updatePath.eq_1, hset]
      simp [hkw]
    · intro q' hq'
      match q' with
      | [] => exact absurd rfl hq'
      | x :: xs => rw [Node.nodeAt.eq_4, Node.nodeAt.eq_4]
  · intro st cs i rest ih old v q hget htgt hne
    rw [Node.getP.eq_2] at hget
    rw [Node.targetOf.eq_2] at htgt
    obtain ⟨sub, cs', rfl, hupd, hleaf, hframe⟩ := ih old v q i hget htgt hne
    refine ⟨.seqn st cs', ?_, ?_, ?_⟩
    · rw [Node.updatePath.eq_2, hupd (.idx i)]
      rfl
    · obtain ⟨n, kw, h⟩ := hleaf
      exact ⟨n, kw, by rw [Node.nodeAt.eq_2]; exact h⟩
    · intro q' hq'
      match q' with
      | [] => rw [Node.nodeAt.eq_1, Node.nodeAt.eq_1]; rfl
      | j' :: qr =>
        rw [Node.nodeAt.eq_2, Node.nodeAt.eq_2]
        refine hframe j' qr ?_
        rintro ⟨rfl, rfl⟩
        exact hq' rfl
  · intro st cs i rest ih old v q hget htgt hne
    rw [Node.getP.eq_3] at hget
    rw [Node.targetOf.eq_3] at htgt
    obtain ⟨sub, cs', rfl, hupd, hleaf, hframe⟩ := ih old v q i hget htgt hne
    refine ⟨.cat st cs', ?_, ?_, ?_⟩
    · rw [Node.updatePath.eq_3, hupd (.idx i)]
      rfl
    · obtain ⟨n, kw, h⟩ := hleaf
      exact ⟨n, kw, by rw [Node.nodeAt.eq_3]; exact h⟩
    · intro q' hq'
      match q' with
      | [] => rw [Node.nodeAt.eq_1, Node.nodeAt.eq_1]; rfl
      | j' :: qr =>
        rw [Node.nodeAt.eq_3, Node.nodeAt.eq_3]
        refine hframe j' qr ?_
        rintro ⟨rfl, rfl⟩
        exact hq' rfl
  · intro t x h1 h2 h3 old v q hget htgt hne
    exfalso
    rw [Node.getP.eq_def] at hget
    split at hget
    next => exact h1 _ _ _ _ _ _ rfl rfl
    next => exact h2 _ _ _ _ rfl rfl
    next => exact h3 _ _ _ _ rfl rfl
    next => exact Option.noConfusion hget
  · intro i rest old v qq orig hget htgt hne
    rw [getChildP.eq_1] at hget
    exact Option.noConfusion hget
  · intro c tail rest ih old v qq orig hget htgt hne
    rw [getChildP.eq_2] at hget
    rw [targetChildOf.eq_2] at htgt
    obtain ⟨sub, hsub, rfl⟩ : ∃ sub, c.targetOf rest = some sub ∧ qq = orig :: sub := by
      match h : c.targetOf rest with
      | some s => rw [h] at htgt; exact ⟨s, rfl, by simpa using htgt.symm⟩
      | none => rw [h] at htgt; exact Option.noConfusion htgt
    obtain ⟨c', hupd, hleaf, hframe⟩ := ih old v sub hget hsub hne
    refine ⟨sub, c' :: tail, rfl, ?_, ?_, ?_⟩
    · intro oseg
      rw [updateChildP.eq_2, hupd]
      rfl
    · obtain ⟨n, kw, h⟩ := hleaf
      exact ⟨n, kw, by rw [nodeChildAt.eq_2]; exact h⟩
    · intro j' qr hj
      match j' with
      | 0 =>
        rw [nodeChildAt.eq_2, nodeChildAt.eq_2]
        exact hframe qr (fun h => hj ⟨rfl, h⟩)
      | jj + 1 => rw [nodeChildAt.eq_3, nodeChildAt.eq_3]
  · intro hd cs i rest ih old v qq orig hget htgt hne
    rw [getChildP.eq_3] at hget
    rw [targetChildOf.eq_3] at htgt
    obtain ⟨sub, cs', rfl, hupd, hleaf, hframe⟩ := ih old v qq orig hget htgt hne
    refine ⟨sub, hd :: cs', rfl, ?_, ?_, ?_⟩
    · intro oseg
      rw [updateChildP.eq_3, hupd oseg]
      rfl
    · obtain ⟨n, kw, h⟩ := hleaf
      exact ⟨n, kw, by rw [nodeChildAt.eq_3]; exact h⟩
    · intro j' qr hj
      match j' with
      | 0 => rw [nodeChildAt.eq_2, nodeChildAt.eq_2]
      | jj + 1 =>
        rw [nodeChildAt.eq_3, nodeChildAt.eq_3]
        refine hframe jj qr ?_
        rintro ⟨rfl, rfl⟩
        exact hj ⟨rfl, rfl⟩

/-! ## Error rejection: an unresolvable path rejects the whole batch -/

theorem findSome?_append_first_some {α β : Type} {l1 l2 : List α} {f : α → Option β}
    {b : β} (h1 : ∀ x ∈ l1, f x = none) (h2 : l2.findSome? f = some b) :
    (l1 ++ l2).findSome? f = some b := by
  induction l1 with
  | nil => simpa using h2
  | cons x l1 ih =>
    rw [List.cons_append, List.findSome?_cons, h1 x (List.mem_cons_self x l1)]
    exact ih (fun y hy => h1 y (List.mem_cons_of_mem x hy))

/-- Applying a single valid path is the singleton batch. -/
theorem set_params_singleton {t t' : Node} {p : List Seg} {v : Lit}
    (h : t.updatePath p v = .ok t') : t.set_params [(p, v)] = .ok t' := by
  unfold Node.set_params
  rw [List.findSome?_cons]
  simp only [h, List.foldl_cons, List.foldl_nil, List.findSome?_nil]

/-! ## Lazy state machine: initial state and invariant preservation -/

/-- Structural induction over the composition tree with member access to
children. -/
def nodeInd {P : Node → Prop}
    (hleaf : ∀ n kw st inst, P (.leaf n kw st inst))
    (hseq : ∀ st cs, (∀ c ∈ cs, P c) → P (.seqn st cs))
    (hcat : ∀ st cs, (∀ c ∈ cs, P c) → P (.cat st cs)) : ∀ t, P t
  | .leaf n kw st inst => hleaf n kw st inst
  | .seqn st cs => hseq st cs (fun c _ => nodeInd hleaf hseq hcat c)
  | .cat st cs => hcat st cs (fun c _ => nodeInd hleaf hseq hcat c)
termination_by t => sizeOf t
decreasing_by
  all_goals simp_wf
  all_goals rename_i hc
  all_goals have hlt := List.sizeOf_lt_of_mem hc
  all_goals omega

theorem parse_allUninit :
    ∀ (l : Lit) (t : Node), parse l = .ok t → t.allUninit = true := by
  refine parse.induct
    (fun l => ∀ t, parse l = .ok t → t.allUninit = true)
    (fun ls => ∀ ns, parseList ls = .ok ns → allUninitList ns = true)
    ?_ ?_ ?_ ?_ ?_ ?_ ?_ ?_ ?_
  · intro s t h
    rw [parse.eq_1] at h
    cases h
    rfl
  · intro s kw t h
    rw [parse.eq_2] at h
    cases h
    rfl
  · intro xs hpair hcond ih t h
    rw [parse.eq_3 xs hpair, if_pos hcond] at h
    match hns : parseList xs with
    | .ok ns =>
      rw [hns] at h
      injection h with h'
      subst h'
      simp only [Node.allUninit, decide_eq_true_eq, Bool.true_and]
      simpa using ih ns hns
    | .error e =>
      rw [hns] at h
      exact Except.noConfusion h
  · intro xs hpair hcond t h
    rw [parse.eq_3 xs hpair, if_neg hcond] at h
    exact Except.noConfusion h
  · intro ls ih t h
    rw [parse.eq_4] at h
    match hns : parseList ls with
    | .ok ns =>
      rw [hns] at h
      injection h with h'
      subst h'
      simp only [Node.allUninit, decide_eq_true_eq, Bool.true_and]
      simpa using ih ns hns
    | .error e =>
      rw [hns] at h
      exact Except.noConfusion h
  · intro ls ih t h
    rw [parse.eq_5] at h
    match hns : parseList ls with
    | .ok ns =>
      rw [hns] at h
      injection h with h'
      subst h'
      simp only [Node.allUninit, decide_eq_true_eq, Bool.true_and]
      simpa using ih ns hns
    | .error e =>
      rw [hns] at h
      exact Except.noConfusion h
  · intro l h1 h2 h3 h4 h5 t h
    rw [parse.eq_6 l h1 h2 h3 h4 h5] at h
    exact Except.noConfusion h
  · intro ns h
    rw [parseList.eq_1] at h
    cases h
    rfl
  · intro x xs ihx ihxs ns h
    rw [parseList.eq_2] at h
    match hn : parse x with
    | .ok n =>
      rw [hn] at h
      simp only [Bind.bind, Except.bind] at h
      match hns : parseList xs with
      | .ok ns' =>
        rw [hns] at h
        simp only [Bind.bind, Except.bind] at h
        injection h with h'
        subst h'
        simp only [allUninitList, Bool.and_eq_true]
        exact ⟨ihx n hn, ihxs ns' hns⟩
      | .error e =>
        rw [hns] at h
        exact Except.noConfusion h
    | .error e =>
      rw [hn] at h
      exact Except.noConfusion h

theorem wfInv_of_allUninit :
    ∀ t : Node, t.allUninit = true → t.wfInv = true := by
  refine nodeInd ?_ ?_ ?_
  · intro n kw st inst h
    simp only [Node.allUninit, Bool.and_eq_true, decide_eq_true_eq] at h
    obtain ⟨rfl, h2⟩ := h
    obtain rfl : inst = none := h2
    rfl
  · intro st cs ih h
    simp only [Node.allUninit, Bool.and_eq_true] at h
    simp only [Node.wfInv]
    have : ∀ ds, (∀ c ∈ ds, c.allUninit = true → c.wfInv = true) →
        allUninitList ds = true → wfInvList ds = true := by
      intro ds
      induction ds with
      | nil => intro _ _; rfl
      | cons c ds ihds =>
        intro hall hun
        simp only [allUninitList, Bool.and_eq_true] at hun
        simp only [wfInvList, Bool.and_eq_true]
        exact ⟨hall c (List.mem_cons_self c ds) hun.1,
          ihds (fun x hx => hall x (List.mem_cons_of_mem c hx)) hun.2⟩
    exact this cs ih h.2
  · intro st cs ih h
    simp only [Node.allUninit, Bool.and_eq_true] at h
    simp only [Node.wfInv]
    have : ∀ ds, (∀ c ∈ ds, c.allUninit = true → c.wfInv = true) →
        allUninitList ds = true → wfInvList ds = true := by
      intro ds
      induction ds with
      | nil => intro _ _; rfl
      | cons c ds ihds =>
        intro hall hun
        simp only [allUninitList, Bool.and_eq_true] at hun
        simp only [wfInvList, Bool.and_eq_true]
        exact ⟨hall c (List.mem_cons_self c ds) hun.1,
          ihds (fun x hx => hall x (List.mem_cons_of_mem c hx)) hun.2⟩
    exact this cs ih h.2
theorem wfInvList_mem {cs : List Node} (h : wfInvList cs = true) :
    ∀ c ∈ cs, c.wfInv = true := by
  induction cs with
  | nil => intro c hc; exact absurd hc (List.not_mem_nil c)
  | cons x cs ih =>
    simp only [wfInvList, Bool.and_eq_true] at h
    intro c hc
    rcases List.mem_cons.mp hc with rfl | hc'
    · exact h.1
    · exact ih h.2 c hc'

theorem seqFT_wfInv (env : Env) :
    ∀ (cs : List Node) (d out : Data) (cs' : List Node),
      (∀ c ∈ cs, ∀ d out c', c.fit_transform env d = .ok (out, c') → c'.wfInv = true) →
      seqFT env cs d = .ok (out, cs') → wfInvList cs' = true := by
  intro cs
  induction cs with
  | nil =>
    intro d out cs' _ h
    rw [seqFT.eq_1] at h
    injection h with h'
    injection h' with h1 h2
    subst h2
    rfl
  | cons c cs ih =>
    intro d out cs' hall h
    rw [seqFT.eq_2] at h
    match hc : c.fit_transform env d with
    | .ok (d1, c1) =>
      rw [hc] at h
      dsimp only at h
      match hcs : seqFT env cs d1 with
      | .ok (o2, cs2) =>
        rw [hcs] at h
        dsimp only at h
        injection h with h'
        injection h' with h1 h2
        subst h2
        simp only [wfInvList, Bool.and_eq_true]
        exact ⟨hall c (List.mem_cons_self c cs) d d1 c1 hc,
          ih d1 o2 cs2 (fun x hx => hall x (List.mem_cons_of_mem c hx)) hcs⟩
      | .error e => rw [hcs] at h; exact Except.noConfusion h
    | .error e => rw [hc] at h; exact Except.noConfusion h

theorem catFT_wfInv (env : Env) :
    ∀ (cs : List Node) (d : Data) (outs : List Data) (cs' : List Node),
      (∀ c ∈ cs, ∀ d out c', c.fit_transform env d = .ok (out, c') → c'.wfInv = true) →
      catFT env cs d = .ok (outs, cs') → wfInvList cs' = true := by
  intro cs
  induction cs with
  | nil =>
    intro d outs cs' _ h
    rw [catFT.eq_1] at h
    injection h with h'
    injection h' with h1 h2
    subst h2
    rfl
  | cons c cs ih =>
    intro d outs cs' hall h
    rw [catFT.eq_2] at h
    match hc : c.fit_transform env d with
    | .ok (o1, c1) =>
      rw [hc] at h
      dsimp only at h
      match hcs : catFT env cs d with
      | .ok (os2, cs2) =>
        rw [hcs] at h
        dsimp only at h
        injection h with h'
        injection h' with h1 h2
        subst h2
        simp only [wfInvList, Bool.and_eq_true]
        exact ⟨hall c (List.mem_cons_self c cs) d o1 c1 hc,
          ih d os2 cs2 (fun x hx => hall x (List.mem_cons_of_mem c hx)) hcs⟩
      | .error e => rw [hcs] at h; exact Except.noConfusion h
    | .error e => rw [hc] at h; exact Except.noConfusion h

/-- After a successful `fit_transform`, every Leaf holds a live backend
instance and is `Fitted`: the lazy-state invariant holds unconditionally. -/
theorem fit_transform_wfInv (env : Env) :
    ∀ (t : Node) (d out : Data) (t' : Node),
      t.fit_transform env d = .ok (out, t') → t'.wfInv = true := by
  refine nodeInd ?_ ?_ ?_
  · intro n kw st inst d out t' h
    rw [Node.fit_transform.eq_1] at h
    by_cases hk : env.known n = true
    · rw [if_pos hk] at h
      injection h with h'
      injection h' with h1 h2
      subst h2
      rfl
    · rw [if_neg hk] at h
      exact Except.noConfusion h
  · intro st cs ih d out t' h
    rw [Node.fit_transform.eq_2] at h
    match hs : seqFT env cs d with
    | .ok (o, cs') =>
      rw [hs] at h
      injection h with h'
      injection h' with h1 h2
      subst h2
      simp only [Node.wfInv]
      exact seqFT_wfInv env cs d o cs' ih hs
    | .error e => rw [hs] at h; exact Except.noConfusion h
  · intro st cs ih d outs t' h
    rw [Node.fit_transform.eq_3] at h
    match hs : catFT env cs d with
    | .ok (os, cs') =>
      rw [hs] at h
      injection h with h'
      injection h' with h1 h2
      subst h2
      simp only [Node.wfInv]
      exact catFT_wfInv env cs d os cs' ih hs
    | .error e => rw [hs] at h; exact Except.noConfusion h
theorem seqTR_wfInv (env : Env) :
    ∀ (cs : List Node) (d out : Data) (cs' : List Node),
      (∀ c ∈ cs, ∀ d out c', c.wfInv = true →
        c.transformOp env d = .ok (out, c') → c'.wfInv = true) →
      wfInvList cs = true →
      seqTR env cs d = .ok (out, cs') → wfInvList cs' = true := by
  intro cs
  induction cs with
  | nil =>
    intro d out cs' _ _ h
    rw [seqTR.eq_1] at h
    injection h with h'
    injection h' with h1 h2
    subst h2
    rfl
  | cons c cs ih =>
    intro d out cs' hall hw h
    simp only [wfInvList, Bool.and_eq_true] at hw
    rw [seqTR.eq_2] at h
    match hc : c.transformOp env d with
    | .ok (d1, c1) =>
      rw [hc] at h
      dsimp only at h
      match hcs : seqTR env cs d1 with
      | .ok (o2, cs2) =>
        rw [hcs] at h
        dsimp only at h
        injection h with h'
        injection h' with h1 h2
        subst h2
        simp only [wfInvList, Bool.and_eq_true]
        exact ⟨hall c (List.mem_cons_self c cs) d d1 c1 hw.1 hc,
          ih d1 o2 cs2 (fun x hx => hall x (List.mem_cons_of_mem c hx)) hw.2 hcs⟩
      | .error e => rw [hcs] at h; exact Except.noConfusion h
    | .error e => rw [hc] at h; exact Except.noConfusion h

theorem catTR_wfInv (env : Env) :
    ∀ (cs : List Node) (d : Data) (outs : List Data) (cs' : List Node),
      (∀ c ∈ cs, ∀ d out c', c.wfInv = true →
        c.transformOp env d = .ok (out, c') → c'.wfInv = true) →
      wfInvList cs = true →
      catTR env cs d = .ok (outs, cs') → wfInvList cs' = true := by
  intro cs
  induction cs with
  | nil =>
    intro d outs cs' _ _ h
    rw [catTR.eq_1] at h
    injection h with h'
    injection h' with h1 h2
    subst h2
    rfl
  | cons c cs ih =>
    intro d outs cs' hall hw h
    simp only [wfInvList, Bool.and_eq_true] at hw
    rw [catTR.eq_2] at h
    match hc : c.transformOp env d with
    | .ok (o1, c1) =>
      rw [hc] at h
      dsimp only at h
      match hcs : catTR env cs d with
      | .ok (os2, cs2) =>
        rw [hcs] at h
        dsimp only at h
        injection h with h'
        injection h' with h1 h2
        subst h2
        simp only [wfInvList, Bool.and_eq_true]
        exact ⟨hall c (List.mem_cons_self c cs) d o1 c1 hw.1 hc,
          ih d os2 cs2 (fun x hx => hall x (List.mem_cons_of_mem c hx)) hw.2 hcs⟩
      | .error e => rw [hcs] at h; exact Except.noConfusion h
    | .error e => rw [hc] at h; exact Except.noConfusion h

/-- `transform` preserves the lazy-state invariant: a reached
`Uninitialized` Leaf is constructed on the spot, the rest keep their
already-consistent state. -/
theorem transformOp_wfInv (env : Env) :
    ∀ (t : Node) (d out : Data) (t' : Node), t.wfInv = true →
      t.transformOp env d = .ok (out, t') → t'.wfInv = true := by
  refine nodeInd ?_ ?_ ?_
  · intro n kw st inst d out t' hw h
    rw [Node.transformOp.eq_1] at h
    by_cases hk : env.known n = true
    · rw [if_pos hk] at h
      injection h with h'
      injection h' with h1 h2
      subst h2
      simp only [Node.wfInv] at hw ⊢
      by_cases hst : st = NState.Uninitialized
      · simp [hst]
      · simp only [if_neg hst]
        exact hw
    · rw [if_neg hk] at h
      exact Except.noConfusion h
  · intro st cs ih d out t' hw h
    simp only [Node.wfInv] at hw
    rw [Node.transformOp.eq_2] at h
    match hs : seqTR env cs d with
    | .ok (o, cs') =>
      rw [hs] at h
      injection h with h'
      injection h' with h1 h2
      subst h2
      simp only [Node.wfInv]
      exact seqTR_wfInv env cs d o cs' ih hw hs
    | .error e => rw [hs] at h; exact Except.noConfusion h
  · intro st cs ih d outs t' hw h
    simp only [Node.wfInv] at hw
    rw [Node.transformOp.eq_3] at h
    match hs : catTR env cs d with
    | .ok (os, cs') =>
      rw [hs] at h
      injection h with h'
      injection h' with h1 h2
      subst h2
      simp only [Node.wfInv]
      exact catTR_wfInv env cs d os cs' ih hw hs
    | .error e => rw [hs] at h; exact Except.noConfusion h
/-- A single parameter write preserves the lazy-state invariant: the
target Leaf either keeps its state (value unchanged) or is reset to
`Uninitialized` with no instance — both consistent. -/
theorem updatePath_wfInv :
    ∀ (t : Node) (segs : List Seg) (v : Lit), ∀ t', t.wfInv = true →
      t.updatePath segs v = .ok t' → t'.wfInv = true := by
  refine Node.updatePath.induct
    (fun t segs v => ∀ t', t.wfInv = true →
      t.updatePath segs v = .ok t' → t'.wfInv = true)
    (fun orig cs i rest v => ∀ cs', wfInvList cs = true →
      updateChildP orig cs i rest v = .ok cs' → wfInvList cs' = true)
    ?_ ?_ ?_ ?_ ?_ ?_ ?_ ?_ ?_ ?_
  · intro n kw st inst k rest v s hset t' hw h
    rw [Node.updatePath.eq_1, hset] at h
    exact Except.noConfusion h
  · intro n st inst k rest v kw' hset t' hw h
    rw [Node.updatePath.eq_1, hset] at h
    dsimp only at h
    rw [if_pos rfl] at h
    injection h with h'
    subst h'
    exact hw
  · intro n kw st inst k rest v kw' hset hne t' hw h
    rw [Node.updatePath.eq_1, hset] at h
    dsimp only at h
    rw [if_neg hne] at h
    injection h with h'
    subst h'
    rfl
  · intro st cs i rest v ih t' hw h
    simp only [Node.wfInv] at hw
    rw [Node.updatePath.eq_2] at h
    match hu : updateChildP (Seg.idx i) cs i rest v with
    | .ok cs' =>
      rw [hu] at h
      injection h with h'
      subst h'
      simp only [Node.wfInv]
      exact ih cs' hw hu
    | .error e => rw [hu] at h; exact Except.noConfusion h
  · intro st cs i rest v ih t' hw h
    simp only [Node.wfInv] at hw
    rw [Node.updatePath.eq_3] at h
    match hu : updateChildP (Seg.idx i) cs i rest v with
    | .ok cs' =>
      rw [hu] at h
      injection h with h'
      subst h'
      simp only [Node.wfInv]
      exact ih cs' hw hu
    | .error e => rw [hu] at h; exact Except.noConfusion h
  · intro t v t' _ h
    rw [Node.updatePath.eq_4] at h
    exact Except.noConfusion h
  · intro t seg tail v h1 h2 h3 t' _ h
    rw [Node.updatePath.eq_5 t v seg tail h1 h2 h3] at h
    exact Except.noConfusion h
  · intro orig i rest v cs' _ h
    rw [updateChildP.eq_1] at h
    exact Except.noConfusion h
  · intro orig c cs rest v ih cs' hw h
    simp only [wfInvList, Bool.and_eq_true] at hw
    rw [updateChildP.eq_2] at h
    match hc : c.updatePath rest v with
    | .ok c1 =>
      rw [hc] at h
      injection h with h'
      subst h'
      simp only [wfInvList, Bool.and_eq_true]
      exact ⟨ih c1 hw.1 hc, hw.2⟩
    | .error e => rw [hc] at h; exact Except.noConfusion h
  · intro orig c cs i rest v ih cs' hw h
    simp only [wfInvList, Bool.and_eq_true] at hw
    rw [updateChildP.eq_3] at h
    match hc : updateChildP orig cs i rest v with
    | .ok cs1 =>
      rw [hc] at h
      injection h with h'
      subst h'
      simp only [wfInvList, Bool.and_eq_true]
      exact ⟨hw.1, ih cs1 hw.2 hc⟩
    | .error e => rw [hc] at h; exact Except.noConfusion h

/-- A single parameter write never creates a backend instance: a fully
uninitialized tree stays fully uninitialized. -/
theorem updatePath_allUninit :
    ∀ (t : Node) (segs : List Seg) (v : Lit), ∀ t', t.allUninit = true →
      t.updatePath segs v = .ok t' → t'.allUninit = true := by
  refine Node.updatePath.induct
    (fun t segs v => ∀ t', t.allUninit = true →
      t.updatePath segs v = .ok t' → t'.allUninit = true)
    (fun orig cs i rest v => ∀ cs', allUninitList cs = true →
      updateChildP orig cs i rest v = .ok cs' → allUninitList cs' = true)
    ?_ ?_ ?_ ?_ ?_ ?_ ?_ ?_ ?_ ?_
  · intro n kw st inst k rest v s hset t' hw h
    rw [Node.updatePath.eq_1, hset] at h
    exact Except.noConfusion h
  · intro n st inst k rest v kw' hset t' hw h
    rw [Node.updatePath.eq_1, hset] at h
    dsimp only at h
    rw [if_pos rfl] at h
    injection h with h'
    subst h'
    exact hw
  · intro n kw st inst k rest v kw' hset hne t' hw h
    rw [Node.updatePath.eq_1, hset] at h
    dsimp only at h
    rw [if_neg hne] at h
    injection h with h'
    subst h'
    rfl
  · intro st cs i rest v ih t' hw h
    simp only [Node.allUninit, Bool.and_eq_true] at hw
    rw [Node.updatePath.eq_2] at h
    match hu : updateChildP (Seg.idx i) cs i rest v with
    | .ok cs' =>
      rw [hu] at h
      injection h with h'
      subst h'
      simp only [Node.allUninit, Bool.and_eq_true]
      exact ⟨hw.1, ih cs' hw.2 hu⟩
    | .error e => rw [hu] at h; exact Except.noConfusion h
  · intro st cs i rest v ih t' hw h
    simp only [Node.allUninit, Bool.and_eq_true] at hw
    rw [Node.updatePath.eq_3] at h
    match hu : updateChildP (Seg.idx i) cs i rest v with
    | .ok cs' =>
      rw [hu] at h
      injection h with h'
      subst h'
      simp only [Node.allUninit, Bool.and_eq_true]
      exact ⟨hw.1, ih cs' hw.2 hu⟩
    | .error e => rw [hu] at h; exact Except.noConfusion h
  · intro t v t' _ h
    rw [Node.updatePath.eq_4] at h
    exact Except.noConfusion h
  · intro t seg tail v h1 h2 h3 t' _ h
    rw [Node.updatePath.eq_5 t v seg tail h1 h2 h3] at h
    exact Except.noConfusion h
  · intro orig i rest v cs' _ h
    rw [updateChildP.eq_1] at h
    exact Except.noConfusion h
  · intro orig c cs rest v ih cs' hw h
    simp only [allUninitList, Bool.and_eq_true] at hw
    rw [updateChildP.eq_2] at h
    match hc : c.updatePath rest v with
    | .ok c1 =>
      rw [hc] at h
      injection h with h'
      subst h'
      simp only [allUninitList, Bool.and_eq_true]
      exact ⟨ih c1 hw.1 hc, hw.2⟩
    | .error e => rw [hc] at h; exact Except.noConfusion h
  · intro orig c cs i rest v ih cs' hw h
    simp only [allUninitList, Bool.and_eq_true] at hw
    rw [updateChildP.eq_3] at h
    match hc : updateChildP orig cs i rest v with
    | .ok cs1 =>
      rw [hc] at h
      injection h with h'
      subst h'
      simp only [allUninitList, Bool.and_eq_true]
      exact ⟨hw.1, ih cs1 hw.2 hc⟩
    | .error e => rw [hc] at h; exact Except.noConfusion h

theorem foldl_preserves {α β : Type} {P : α → Prop} {g : α → β → α} {l : List β}
    {a : α} (ha : P a) (h : ∀ x b, P x → P (g x b)) : P (l.foldl g a) := by
  induction l generalizing a with
  | nil => exact ha
  | cons b l ih => exact ih (h a b ha)

/-- A successful `set_params` batch preserves the lazy-state invariant. -/
theorem set_params_wfInv {t : Node} {ps : List (List Seg × Lit)} {t' : Node}
    (hw : t.wfInv = true) (h : t.set_params ps = .ok t') : t'.wfInv = true := by
  unfold Node.set_params at h
  match hf : ps.findSome? (fun pv =>
      match t.updatePath pv.1 pv.2 with
      | .ok _ => none
      | .error seg => some (pv.1, seg)) with
  | some pr =>
    rw [hf] at h
    exact Except.noConfusion h
  | none =>
    rw [hf] at h
    injection h with h'
    subst h'
    refine @foldl_preserves Node (List Seg × Lit) (fun u => u.wfInv = true) _ ps t hw ?_
    intro x pv hx
    match hu : x.updatePath pv.1 pv.2 with
    | .ok u => exact updatePath_wfInv x pv.1 pv.2 u hx hu
    | .error e => exact hx

/-- A successful `set_params` batch never creates a backend instance. -/
theorem set_params_allUninit {t : Node} {ps : List (List Seg × Lit)} {t' : Node}
    (hw : t.allUninit = true) (h : t.set_params ps = .ok t') : t'.allUninit = true := by
  unfold Node.set_params at h
  match hf : ps.findSome? (fun pv =>
      match t.updatePath pv.1 pv.2 with
      | .ok _ => none
      | .error seg => some (pv.1, seg)) with
  | some pr =>
    rw [hf] at h
    exact Except.noConfusion h
  | none =>
    rw [hf] at h
    injection h with h'
    subst h'
    refine @foldl_preserves Node (List Seg × Lit) (fun u => u.allUninit = true) _ ps t hw ?_
    intro x pv hx
    match hu : x.updatePath pv.1 pv.2 with
    | .ok u => exact updatePath_allUninit x pv.1 pv.2 u hx hu
    | .error e => exact hx
/-! ## Frame of the executor: fitting never touches configuration -/

theorem seqFT_stripConfig (env : Env) :
    ∀ (cs : List Node) (d out : Data) (cs' : List Node),
      (∀ c ∈ cs, ∀ d out c', c.fit_transform env d = .ok (out, c') →
        c'.stripConfig = c.stripConfig) →
      seqFT env cs d = .ok (out, cs') → stripConfigList cs' = stripConfigList cs := by
  intro cs
  induction cs with
  | nil =>
    intro d out cs' _ h
    rw [seqFT.eq_1] at h
    injection h with h'
    injection h' with h1 h2
    subst h2
    rfl
  | cons c cs ih =>
    intro d out cs' hall h
    rw [seqFT.eq_2] at h
    match hc : c.fit_transform env d with
    | .ok (d1, c1) =>
      rw [hc] at h
      dsimp only at h
      match hcs : seqFT env cs d1 with
      | .ok (o2, cs2) =>
        rw [hcs] at h
        dsimp only at h
        injection h with h'
        injection h' with h1 h2
        subst h2
        rw [stripConfigList.eq_2, stripConfigList.eq_2]
        rw [hall c (List.mem_cons_self c cs) d d1 c1 hc,
          ih d1 o2 cs2 (fun x hx => hall x (List.mem_cons_of_mem c hx)) hcs]
      | .error e => rw [hcs] at h; exact Except.noConfusion h
    | .error e => rw [hc] at h; exact Except.noConfusion h

theorem catFT_stripConfig (env : Env) :
    ∀ (cs : List Node) (d : Data) (outs : List Data) (cs' : List Node),
      (∀ c ∈ cs, ∀ d out c', c.fit_transform env d = .ok (out, c') →
        c'.stripConfig = c.stripConfig) →
      catFT env cs d = .ok (outs, cs') → stripConfigList cs' = stripConfigList cs := by
  intro cs
  induction cs with
  | nil =>
    intro d outs cs' _ h
    rw [catFT.eq_1] at h
    injection h with h'
    injection h' with h1 h2
    subst h2
    rfl
  | cons c cs ih =>
    intro d outs cs' hall h
    rw [catFT.eq_2] at h
    match hc : c.fit_transform env d with
    | .ok (o1, c1) =>
      rw [hc] at h
      dsimp only at h
      match hcs : catFT env cs d with
      | .ok (os2, cs2) =>
        rw [hcs] at h
        dsimp only at h
        injection h with h'
        injection h' with h1 h2
        subst h2
        rw [stripConfigList.eq_2, stripConfigList.eq_2]
        rw [hall c (List.mem_cons_self c cs) d o1 c1 hc,
          ih d os2 cs2 (fun x hx => hall x (List.mem_cons_of_mem c hx)) hcs]
      | .error e => rw [hcs] at h; exact Except.noConfusion h
    | .error e => rw [hc] at h; exact Except.noConfusion h

/-- `fit_transform` only changes lifecycle state and backend instances —
structure, backend names and kwargs (including any nested schema literal
stored as a kwarg) are untouched. -/
theorem fit_transform_stripConfig (env : Env) :
    ∀ (t : Node) (d out : Data) (t' : Node),
      t.fit_transform env d = .ok (out, t') → t'.stripConfig = t.stripConfig := by
  refine nodeInd ?_ ?_ ?_
  · intro n kw st inst d out t' h
    rw [Node.fit_transform.eq_1] at h
    by_cases hk : env.known n = true
    · rw [if_pos hk] at h
      injection h with h'
      injection h' with h1 h2
      subst h2
      rfl
    · rw [if_neg hk] at h
      exact Except.noConfusion h
  · intro st cs ih d out t' h
    rw [Node.fit_transform.eq_2] at h
    match hs : seqFT env cs d with
    | .ok (o, cs') =>
      rw [hs] at h
      injection h with h'
      injection h' with h1 h2
      subst h2
      rw [Node.stripConfig.eq_2, Node.stripConfig.eq_2,
        seqFT_stripConfig env cs d o cs' ih hs]
    | .error e => rw [hs] at h; exact Except.noConfusion h
  · intro st cs ih d outs t' h
    rw [Node.fit_transform.eq_3] at h
    match hs : catFT env cs d with
    | .ok (os, cs') =>
      rw [hs] at h
      injection h with h'
      injection h' with h1 h2
      subst h2
      rw [Node.stripConfig.eq_3, Node.stripConfig.eq_3,
        catFT_stripConfig env cs d os cs' ih hs]
    | .error e => rw [hs] at h; exact Except.noConfusion h

/-! ## Shape laws -/

theorem zipWith_append_shape :
    ∀ (a : Data) (b : Data) (m w1 w2 : Nat), HasShape a m w1 → HasShape b m w2 →
      HasShape (a.zipWith (· ++ ·) b) m (w1 + w2) := by
  intro a
  induction a with
  | nil =>
    intro b m w1 w2 ha hb
    obtain ⟨ha1, -⟩ := ha
    obtain ⟨hb1, -⟩ := hb
    subst ha1
    obtain rfl : b = [] := List.length_eq_zero.mp (hb1.trans rfl)
    exact ⟨rfl, by intro r hr; exact absurd hr (List.not_mem_nil r)⟩
  | cons r a ih =>
    intro b m w1 w2 ha hb
    obtain ⟨ha1, ha2⟩ := ha
    obtain ⟨hb1, hb2⟩ := hb
    match b, m with
    | s :: b, m + 1 =>
      simp only [List.zipWith_cons_cons]
      have hab : HasShape (a.zipWith (· ++ ·) b) m (w1 + w2) := by
        refine ih b m w1 w2 ⟨by simpa using ha1, ?_⟩ ⟨by simpa using hb1, ?_⟩
        · intro x hx; exact ha2 x (List.mem_cons_of_mem r hx)
        · intro x hx; exact hb2 x (List.mem_cons_of_mem s hx)
      refine ⟨by simpa using hab.1, ?_⟩
      intro x hx
      rcases List.mem_cons.mp hx with rfl | hx'
      · rw [List.length_append, ha2 r (List.mem_cons_self r a),
          hb2 s (List.mem_cons_self s b)]
      · exact hab.2 x hx'
    | [], m =>
      exfalso
      rw [← hb1] at ha1
      exact absurd ha1 (by simp)

theorem hconcat_shape :
    ∀ (ds : List Data) (ws : List Nat) (m : Nat),
      List.Forall₂ (fun d w => HasShape d m w) ds ws → ds ≠ [] →
      HasShape (hconcat ds) m ws.sum := by
  intro ds
  induction ds with
  | nil => intro ws m _ hne; exact absurd rfl hne
  | cons d ds ih =>
    intro ws m hf _
    match ws, hf with
    | w :: ws, hf =>
      have hd := List.forall₂_cons.mp hf
      match ds, ws, hd.2 with
      | [], [], _ =>
        rw [hconcat.eq_2]
        simpa using hd.1
      | d2 :: ds2, w2 :: ws2, htail =>
        rw [hconcat.eq_3 d (d2 :: ds2) (by simp)]
        have := ih (w2 :: ws2) m htail (by simp)
        simpa [Nat.add_assoc] using zipWith_append_shape d (hconcat (d2 :: ds2)) m w
          (w2 + ws2.sum) hd.1 (by simpa using this)

theorem catFT_of_forall2 (env : Env) (d : Data) :
    ∀ (cs : List Node) (ws : List Nat) (m : Nat),
      List.Forall₂ (fun c w => ∃ out c', c.fit_transform env d = .ok (out, c') ∧
        HasShape out m w) cs ws →
      ∃ outs cs', catFT env cs d = .ok (outs, cs') ∧
        List.Forall₂ (fun o w => HasShape o m w) outs ws ∧
        outs.length = cs.length := by
  intro cs
  induction cs with
  | nil =>
    intro ws m hf
    obtain rfl : ws = [] := by cases hf; rfl
    exact ⟨[], [], by rw [catFT.eq_1], List.Forall₂.nil, rfl⟩
  | cons c cs ih =>
    intro ws m hf
    match ws, hf with
    | w :: ws, hf =>
      have hd := List.forall₂_cons.mp hf
      obtain ⟨out, c', hft, hsh⟩ := hd.1
      obtain ⟨outs, cs', hcat, hf2, hlen⟩ := ih ws m hd.2
      refine ⟨out :: outs, c' :: cs', ?_, List.Forall₂.cons hsh hf2, by simpa using hlen⟩
      rw [catFT.eq_2, hft]
      dsimp only
      rw [hcat]

/-! ## Parser lemmas -/

theorem parseList_forall2 :
    ∀ (ls : List Lit) (ns : List Node), parseList ls = .ok ns →
      List.Forall₂ (fun x c => parse x = .ok c) ls ns := by
  intro ls
  induction ls with
  | nil =>
    intro ns h
    rw [parseList.eq_1] at h
    injection h with h'
    subst h'
    exact List.Forall₂.nil
  | cons x xs ih =>
    intro ns h
    rw [parseList.eq_2] at h
    match hx : parse x with
    | .ok n =>
      rw [hx] at h
      simp only [Bind.bind, Except.bind] at h
      match hxs : parseList xs with
      | .ok ns' =>
        rw [hxs] at h
        injection h with h'
        subst h'
        exact List.Forall₂.cons hx (ih ns' hxs)
      | .error e => rw [hxs] at h; exact Except.noConfusion h
    | .error e =>
      rw [hx] at h
      simp only [Bind.bind, Except.bind] at h
      exact Except.noConfusion h

/-! ## Sequential chaining -/

theorem seqn_two_chain (env : Env) (st : NState) (A B : Node) (d dA dB : Data)
    (A' B' : Node) (hA : A.fit_transform env d = .ok (dA, A'))
    (hB : B.fit_transform env dA = .ok (dB, B')) :
    (Node.seqn st [A, B]).fit_transform env d = .ok (dB, .seqn .Fitted [A', B']) := by
  have hseq : seqFT env [A, B] d = .ok (dB, [A', B']) := by
    rw [seqFT.eq_2, hA]
    dsimp only
    rw [seqFT.eq_2, hB]
    dsimp only
    rw [seqFT.eq_1]
  rw [Node.fit_transform.eq_2, hseq]
/-! ## Claim theorems -/

/-- Claim C1, amended: for every composition tree and every kwarg path whose
target Leaf is `Constructed` or `Fitted`, applying `set_params` to that path
with a value different from the one currently stored resets exactly that
Leaf's state to `Uninitialized` and drops its backend instance to `none`,
while the state of every other node (siblings and ancestors) is unchanged.
(The amendment adds "with a value different from the current one": writing
back the stored value is a no-op and resets nothing.) -/
theorem set_params_changed_value_resets_only_target
    (t : Node) (segs : List Seg) (old v : Lit) (q : List Nat)
    (hget : t.getP segs = some old)
    (htgt : t.targetOf segs = some q)
    (_hstate : (t.nodeAt q).map Node.state = some NState.Constructed ∨
      (t.nodeAt q).map Node.state = some NState.Fitted)
    (hne : v ≠ old) :
    ∃ t', t.set_params [(segs, v)] = .ok t' ∧
      (∃ n kw, t'.nodeAt q = some (.leaf n kw .Uninitialized none)) ∧
      ∀ q', q' ≠ q → (t'.nodeAt q').map Node.state = (t.nodeAt q').map Node.state := by
  obtain ⟨t', hupd, hleaf, hframe⟩ := updatePath_frame t segs old v q hget htgt hne
  exact ⟨t', set_params_singleton hupd, hleaf, hframe⟩

/-- Claim C1, counterexample to the claim as stated: on a Fitted nmf Leaf,
applying `set_params` to its `n_components` path with the value it already
holds (30) leaves the tree — and in particular the target Leaf's `Fitted`
state — completely unchanged, instead of resetting it to `Uninitialized`. -/
theorem set_params_same_value_no_reset_counterexample :
    exFittedSeq.getP exPathNmf0 = some (Lit.num 30) ∧
    exFittedSeq.targetOf exPathNmf0 = some [0] ∧
    (exFittedSeq.nodeAt [0]).map Node.state = some NState.Fitted ∧
    exFittedSeq.set_params [(exPathNmf0, Lit.num 30)] = .ok exFittedSeq ∧
    (exFittedSeq.nodeAt [0]).map Node.state ≠ some NState.Uninitialized :=
  ⟨rfl, rfl, rfl, rfl, by decide⟩

/-- Claim C1 witness: the amended theorem applied to the fitted chain
`nmf → svd`, writing 10 over the stored 30. -/
theorem set_params_changed_value_resets_only_target_witness :
    exFittedSeq.getP exPathNmf0 = some (Lit.num 30) ∧
    ∃ t', exFittedSeq.set_params [(exPathNmf0, Lit.num 10)] = .ok t' ∧
      (∃ n kw, t'.nodeAt [0] = some (.leaf n kw .Uninitialized none)) ∧
      ∀ q', q' ≠ [0] →
        (t'.nodeAt q').map Node.state = (exFittedSeq.nodeAt q').map Node.state :=
  ⟨rfl, set_params_changed_value_resets_only_target exFittedSeq exPathNmf0
    (Lit.num 30) (Lit.num 10) [0] rfl rfl (Or.inr rfl) (by decide)⟩

/-- Claim C2: for every composition tree (kwargs being mappings, their keys
are pairwise distinct), the round-trip `set_params (get_params t)` is
accepted and returns the very same tree: every kwarg keeps its value and no
node's state changes — in particular no Constructed/Fitted node is reset. -/
theorem set_params_get_params_roundtrip_noop (t : Node) (h : t.kwNodup = true) :
    t.set_params t.get_params = .ok t :=
  set_params_of_all_self (updatePath_get_params_self t h)

/-- Claim C2 witness: the round-trip on the fitted chain `nmf → svd`. -/
theorem set_params_get_params_roundtrip_noop_witness :
    exFittedSeq.kwNodup = true ∧
    exFittedSeq.set_params exFittedSeq.get_params = .ok exFittedSeq :=
  ⟨rfl, set_params_get_params_roundtrip_noop exFittedSeq rfl⟩

/-- Claim C3: a `set_params` batch containing a path that does not resolve
(after any number of resolvable ones) fails with a `ParameterPathError`
naming that path and its first unresolved segment; since the whole batch is
validated against the unmutated tree before anything is applied, the error
result carries no partially-mutated tree — the caller's tree is unchanged. -/
theorem set_params_unknown_path_rejects_whole_batch
    (t : Node) (pre post : List (List Seg × Lit)) (p : List Seg) (v : Lit) (seg : Seg)
    (hpre : ∀ qv ∈ pre, ∃ u, t.updatePath qv.1 qv.2 = .ok u)
    (hfail : t.updatePath p v = .error seg) :
    t.set_params (pre ++ (p, v) :: post) = .error (.paramPath p seg) := by
  have hnone : ∀ x ∈ pre, (match t.updatePath x.1 x.2 with
      | .ok _ => (none : Option (List Seg × Seg))
      | .error s => some (x.1, s)) = none := by
    intro x hx
    obtain ⟨u, hu⟩ := hpre x hx
    rw [hu]
  have hsome : (((p, v) :: post).findSome? fun pv =>
      match t.updatePath pv.1 pv.2 with
      | .ok _ => none
      | .error s => some (pv.1, s)) = some (p, seg) := by
    rw [List.findSome?_cons]
    dsimp only
    rw [hfail]
  unfold Node.set_params
  rw [findSome?_append_first_some hnone hsome]

/-- Claim C3 witness: on the fitted chain `nmf → svd` (2 children), a batch
with one good write followed by `transform__5__n_components` fails with a
`ParameterPathError` naming the out-of-range index 5. -/
theorem set_params_unknown_path_rejects_whole_batch_witness :
    exFittedSeq.updatePath exBadPath (Lit.num 10) = .error (Seg.idx 5) ∧
    exFittedSeq.set_params
        ([(exPathNmf0, Lit.num 12)] ++ (exBadPath, Lit.num 10) :: []) =
      .error (.paramPath exBadPath (Seg.idx 5)) :=
  ⟨rfl, set_params_unknown_path_rejects_whole_batch exFittedSeq
    [(exPathNmf0, Lit.num 12)] [] exBadPath (Lit.num 10) (Seg.idx 5)
    (by
      intro qv hqv
      rcases List.mem_singleton.mp hqv with rfl
      exact ⟨exFittedSeqReset, rfl⟩)
    rfl⟩

/-- Claim C4: construction is fully lazy and the instance invariant holds
throughout. (1) A freshly parsed tree is entirely `Uninitialized` with no
backend instance anywhere, and satisfies the invariant "instance present
iff state is not Uninitialized". The invariant is preserved by
(2) `fit_transform`, (3) `fit`, (4) `transform` and (5) `set_params`;
(6) `set_params` never creates an instance: a fully lazy tree stays fully
lazy, so instances appear only when a fit/transform call reaches a Leaf. -/
theorem lazy_construction_state_invariant :
    (∀ (l : Lit) (t : Node), parse l = .ok t →
      t.allUninit = true ∧ t.wfInv = true) ∧
    (∀ (env : Env) (t : Node) (d out : Data) (t' : Node),
      t.fit_transform env d = .ok (out, t') → t'.wfInv = true) ∧
    (∀ (env : Env) (t : Node) (d : Data) (t' : Node),
      t.fit env d = .ok t' → t'.wfInv = true) ∧
    (∀ (env : Env) (t : Node) (d out : Data) (t' : Node), t.wfInv = true →
      t.transformOp env d = .ok (out, t') → t'.wfInv = true) ∧
    (∀ (t : Node) (ps : List (List Seg × Lit)) (t' : Node),
      t.wfInv = true → t.set_params ps = .ok t' → t'.wfInv = true) ∧
    (∀ (t : Node) (ps : List (List Seg × Lit)) (t' : Node),
      t.allUninit = true → t.set_params ps = .ok t' →
      t'.allUninit = true) := by
  refine ⟨?_, ?_, ?_, ?_, ?_, ?_⟩
  · intro l t h
    exact ⟨parse_allUninit l t h, wfInv_of_allUninit t (parse_allUninit l t h)⟩
  · intro env t d out t' h
    exact fit_transform_wfInv env t d out t' h
  · intro env t d t' h
    unfold Node.fit at h
    match hft : t.fit_transform env d with
    | .ok (o, u) =>
      rw [hft] at h
      injection h with h'
      subst h'
      exact fit_transform_wfInv env t d o u hft
    | .error e => rw [hft] at h; exact Except.noConfusion h
  · intro env t d out t' hw h
    exact transformOp_wfInv env t d out t' hw h
  · intro t ps t' hw h
    exact set_params_wfInv hw h
  · intro t ps t' hw h
    exact set_params_allUninit hw h

/-- Claim C4 witness: every conjunct applied to the spec's §8.1 example
schema and the concrete environment: parsing yields a fully lazy,
invariant-satisfying tree; fitting, transforming and both kinds of
parameter writes keep the invariant (and keep a lazy tree lazy). -/
theorem lazy_construction_state_invariant_witness :
    (exSeq2.allUninit = true ∧ exSeq2.wfInv = true) ∧
    exSeq2Fitted.wfInv = true ∧
    exSeq2Fitted.wfInv = true ∧
    exSeq2Fitted.wfInv = true ∧
    exFittedSeqReset.wfInv = true ∧
    exSeq2Upd7.allUninit = true :=
  ⟨lazy_construction_state_invariant.1 exLit exSeq2 rfl,
   lazy_construction_state_invariant.2.1 exEnv exSeq2 [[1], [2]]
     [[0, 0], [0, 0]] exSeq2Fitted rfl,
   lazy_construction_state_invariant.2.2.1 exEnv exSeq2 [[1], [2]] exSeq2Fitted rfl,
   lazy_construction_state_invariant.2.2.2.1 exEnv exSeq2Fitted [[1], [2]]
     [[0, 0], [0, 0]] exSeq2Fitted rfl rfl,
   lazy_construction_state_invariant.2.2.2.2.1 exFittedSeq
     [(exPathNmf0, Lit.num 12)] exFittedSeqReset rfl rfl,
   lazy_construction_state_invariant.2.2.2.2.2 exSeq2
     [(exPathNmf1, Lit.num 7)] exSeq2Upd7 rfl rfl⟩

/-- Claim C5: on the notebook's compound pipeline, the parameter path
`embedding__schema__transform__0__concat__1__transform__1__n_components`
(rendered from its segment form) resolves through the nested schema kwarg
to exactly the `n_components` kwarg of the nmf Leaf inside the second
concat branch: reading it yields the stored 30, and writing 5 through
`set_params` produces exactly the pipeline whose schema literal differs
only in that kwarg; reading it back yields 5. -/
theorem compound_schema_path_resolution :
    renderPath nbPath =
      "embedding__schema__transform__0__concat__1__transform__1__n_components" ∧
    nbPipe.getP nbPath = some (Lit.num 30) ∧
    nbPipe.set_params [(nbPath, Lit.num 5)] = .ok nbPipe5 ∧
    nbPipe5.getP nbPath = some (Lit.num 5) :=
  ⟨rfl, rfl, rfl, rfl⟩

/-- Claim C6: parsing the single-key mapping with key `concat` over a list
of sub-schemas yields a Concat node over their element-wise parses, in
order; with key `transform`, a Sequential node over the same children. -/
theorem parse_concat_transform_nodes (L : List Lit) (cs : List Node)
    (h : parseList L = .ok cs) :
    parse (.map [("concat", .list L)]) = .ok (.cat .Uninitialized cs) ∧
    parse (.map [("transform", .list L)]) = .ok (.seqn .Uninitialized cs) ∧
    List.Forall₂ (fun x c => parse x = .ok c) L cs := by
  refine ⟨?_, ?_, parseList_forall2 L cs h⟩
  · rw [parse.eq_4, h]
    rfl
  · rw [parse.eq_5, h]
    rfl

/-- Claim C6 witness: the sub-schemas of the spec's §8.1 example list. -/
theorem parse_concat_transform_nodes_witness :
    parseList [Lit.str "tfidf", Lit.list [.str "nmf", .map [("n_components", .num 30)]]] =
      .ok [Node.leaf "tfidf" [] .Uninitialized none,
           Node.leaf "nmf" [("n_components", .num 30)] .Uninitialized none] ∧
    (parse (.map [("concat",
        .list [Lit.str "tfidf", Lit.list [.str "nmf", .map [("n_components", .num 30)]]])]) =
      .ok (.cat .Uninitialized
        [Node.leaf "tfidf" [] .Uninitialized none,
         Node.leaf "nmf" [("n_components", .num 30)] .Uninitialized none]) ∧
    parse (.map [("transform",
        .list [Lit.str "tfidf", Lit.list [.str "nmf", .map [("n_components", .num 30)]]])]) =
      .ok (.seqn .Uninitialized
        [Node.leaf "tfidf" [] .Uninitialized none,
         Node.leaf "nmf" [("n_components", .num 30)] .Uninitialized none]) ∧
    List.Forall₂ (fun x c => parse x = .ok c)
      [Lit.str "tfidf", Lit.list [.str "nmf", .map [("n_components", .num 30)]]]
      [Node.leaf "tfidf" [] .Uninitialized none,
       Node.leaf "nmf" [("n_components", .num 30)] .Uninitialized none]) :=
  ⟨rfl, parse_concat_transform_nodes
    [Lit.str "tfidf", Lit.list [.str "nmf", .map [("n_components", .num 30)]]]
    [Node.leaf "tfidf" [] .Uninitialized none,
     Node.leaf "nmf" [("n_components", .num 30)] .Uninitialized none] rfl⟩

/-- Claim C7: for a Concat node with children whose `fit_transform` on the
shared input (m rows) produces widths w1..wn, the node's `fit_transform`
succeeds, marks the node Fitted, and returns an output of shape
(m, w1+...+wn), the children's columns appended in child order. -/
theorem concat_fit_transform_shape_law (env : Env) (st : NState)
    (cs : List Node) (ws : List Nat) (m : Nat) (d : Data) (hne : cs ≠ [])
    (hf : List.Forall₂ (fun c w => ∃ out c',
      c.fit_transform env d = .ok (out, c') ∧ HasShape out m w) cs ws) :
    ∃ out cs', (Node.cat st cs).fit_transform env d = .ok (out, .cat .Fitted cs') ∧
      HasShape out m ws.sum := by
  obtain ⟨outs, cs', hcat, hf2, hlen⟩ := catFT_of_forall2 env d cs ws m hf
  have houts : outs ≠ [] := by
    intro h
    rw [h] at hlen
    exact hne (List.length_eq_zero.mp hlen.symm)
  refine ⟨hconcat outs, cs', ?_, hconcat_shape outs ws m hf2 houts⟩
  rw [Node.fit_transform.eq_3, hcat]

/-- Claim C7 witness: a Concat of tfidf (width 3) and nmf (width 2) on two
input rows produces a 2 × 5 output. -/
theorem concat_fit_transform_shape_law_witness :
    ([Node.leaf "tfidf" [] .Uninitialized none,
      Node.leaf "nmf" [] .Uninitialized none] ≠ ([] : List Node)) ∧
    ∃ out cs',
      (Node.cat .Uninitialized
        [Node.leaf "tfidf" [] .Uninitialized none,
         Node.leaf "nmf" [] .Uninitialized none]).fit_transform exEnv [[1], [2]] =
        .ok (out, .cat .Fitted cs') ∧
      HasShape out 2 ([3, 2].sum) :=
  ⟨by decide,
   concat_fit_transform_shape_law exEnv .Uninitialized
     [Node.leaf "tfidf" [] .Uninitialized none,
      Node.leaf "nmf" [] .Uninitialized none] [3, 2] 2 [[1], [2]] (by decide)
     (List.Forall₂.cons
       ⟨[[0, 0, 0], [0, 0, 0]], Node.leaf "tfidf" [] .Fitted (some "tfidf"),
        rfl, by decide⟩
       (List.Forall₂.cons
         ⟨[[0, 0], [0, 0]], Node.leaf "nmf" [] .Fitted (some "nmf"),
          rfl, by decide⟩
         List.Forall₂.nil))⟩

/-- Claim C8: for a 2-node Sequential [A, B], `fit_transform data` threads
A's output into B: it equals B's `fit_transform` of A's `fit_transform` of
the input, and the resulting tree holds the updated children in order. -/
theorem sequential_two_node_chaining (env : Env) (st : NState) (A B : Node)
    (d dA dB : Data) (A' B' : Node)
    (hA : A.fit_transform env d = .ok (dA, A'))
    (hB : B.fit_transform env dA = .ok (dB, B')) :
    (Node.seqn st [A, B]).fit_transform env d = .ok (dB, .seqn .Fitted [A', B']) := by
  have hseq : seqFT env [A, B] d = .ok (dB, [A', B']) := by
    rw [seqFT.eq_2, hA]
    dsimp only
    rw [seqFT.eq_2, hB]
    dsimp only
    rw [seqFT.eq_1]
  rw [Node.fit_transform.eq_2, hseq]

/-- Claim C8 witness: tfidf then nmf on two rows; the chain's output equals
nmf applied to tfidf's output. -/
theorem sequential_two_node_chaining_witness :
    (Node.leaf "tfidf" [] .Uninitialized none).fit_transform exEnv [[1], [2]] =
      .ok ([[0, 0, 0], [0, 0, 0]], .leaf "tfidf" [] .Fitted (some "tfidf")) ∧
    (Node.leaf "nmf" [] .Uninitialized none).fit_transform exEnv
        [[0, 0, 0], [0, 0, 0]] =
      .ok ([[0, 0], [0, 0]], .leaf "nmf" [] .Fitted (some "nmf")) ∧
    (Node.seqn .Uninitialized
      [Node.leaf "tfidf" [] .Uninitialized none,
       Node.leaf "nmf" [] .Uninitialized none]).fit_transform exEnv [[1], [2]] =
      .ok ([[0, 0], [0, 0]], .seqn .Fitted
        [.leaf "tfidf" [] .Fitted (some "tfidf"),
         .leaf "nmf" [] .Fitted (some "nmf")]) :=
  ⟨rfl, rfl,
   sequential_two_node_chaining exEnv .Uninitialized
     (Node.leaf "tfidf" [] .Uninitialized none)
     (Node.leaf "nmf" [] .Uninitialized none)
     [[1], [2]] [[0, 0, 0], [0, 0, 0]] [[0, 0], [0, 0]]
     (.leaf "tfidf" [] .Fitted (some "tfidf"))
     (.leaf "nmf" [] .Fitted (some "nmf")) rfl rfl⟩

/-- Claim C9: a schema naming an unregistered backend parses without error
(parsing is purely structural and consults no registry); the failure is an
`UnknownBackendError` raised at the first `fit` / `transform` /
`fit_transform` call that reaches the offending Leaf. -/
theorem unknown_backend_error_at_first_use :
    (∀ kw, parse (.list [.str "not_a_real_embedding", .map kw]) =
      .ok (.leaf "not_a_real_embedding" kw .Uninitialized none)) ∧
    (∀ (env : Env) (n : String) kw st inst d, env.known n = false →
      Node.fit_transform env (.leaf n kw st inst) d = .error (.unknownBackend n) ∧
      Node.transformOp env (.leaf n kw st inst) d = .error (.unknownBackend n) ∧
      Node.fit env (.leaf n kw st inst) d = .error (.unknownBackend n)) := by
  refine ⟨fun kw => parse.eq_2 "not_a_real_embedding" kw, ?_⟩
  intro env n kw st inst d hk
  have hk' : ¬ env.known n = true := by rw [hk]; exact Bool.false_ne_true
  refine ⟨?_, ?_, ?_⟩
  · rw [Node.fit_transform.eq_1, if_neg hk']
  · rw [Node.transformOp.eq_1, if_neg hk']
  · unfold Node.fit
    rw [Node.fit_transform.eq_1, if_neg hk']
    rfl

/-- Claim C9 witness: `not_a_real_embedding` is absent from the concrete
registry; its Leaf parses fine and errs at first `fit_transform`. -/
theorem unknown_backend_error_at_first_use_witness :
    exEnv.known "not_a_real_embedding" = false ∧
    parse (.list [.str "not_a_real_embedding", .map []]) =
      .ok (.leaf "not_a_real_embedding" [] .Uninitialized none) ∧
    Node.fit_transform exEnv
        (.leaf "not_a_real_embedding" [] .Uninitialized none) [[1]] =
      .error (.unknownBackend "not_a_real_embedding") :=
  ⟨rfl, unknown_backend_error_at_first_use.1 [],
   (unknown_backend_error_at_first_use.2 exEnv "not_a_real_embedding" []
     .Uninitialized none [[1]] rfl).1⟩

/-- Claim C10: constructing a compound pipeline stores the caller's schema
literal verbatim as the `schema` kwarg, and fitting never touches
configuration: `fit_transform` preserves the configuration content of the
whole tree (structure, names, kwargs — state erased), so the schema kwarg
read back after construction and fitting is structurally equal to the
literal passed in. -/
theorem fit_does_not_mutate_schema_kwarg :
    (∀ (s : String) (kw : List (String × Lit)),
      parse (.list [.str s, .map kw]) = .ok (.leaf s kw .Uninitialized none)) ∧
    (∀ (env : Env) (t : Node) (d out : Data) (t' : Node),
      t.fit_transform env d = .ok (out, t') →
      t'.stripConfig = t.stripConfig) ∧
    (∀ (env : Env) (s : String) (sch : Lit) (d out : Data) (t' : Node),
      Node.fit_transform env (.leaf s [("schema", sch)] .Uninitialized none) d =
        .ok (out, t') →
      t'.getP [.name "schema"] = some sch) := by
  refine ⟨fun s kw => parse.eq_2 s kw,
    fun env t d out t' h => fit_transform_stripConfig env t d out t' h, ?_⟩
  intro env s sch d out t' h
  rw [Node.fit_transform.eq_1] at h
  by_cases hk : env.known s = true
  · rw [if_pos hk] at h
    injection h with h'
    injection h' with h1 h2
    subst h2
    rw [Node.getP.eq_1]
    simp [getAssocP, Lit.getP]
  · rw [if_neg hk] at h
    exact Except.noConfusion h

/-- Claim C10 witness: the notebook's compound Leaf — parsed from the pair
literal, then fitted — still reads back the untouched `nbSchema` literal,
and its configuration content is unchanged. -/
theorem fit_does_not_mutate_schema_kwarg_witness :
    parse (.list [.str "compound", .map [("schema", nbSchema)]]) = .ok nbCompound ∧
    (Node.leaf "compound" [("schema", nbSchema)] .Fitted
      (some "compound")).stripConfig = nbCompound.stripConfig ∧
    (Node.leaf "compound" [("schema", nbSchema)] .Fitted
      (some "compound")).getP [.name "schema"] = some nbSchema :=
  ⟨fit_does_not_mutate_schema_kwarg.1 "compound" [("schema", nbSchema)],
   fit_does_not_mutate_schema_kwarg.2.1 exEnv nbCompound [[1]] [[0, 0]]
     (Node.leaf "compound" [("schema", nbSchema)] .Fitted (some "compound")) rfl,
   fit_does_not_mutate_schema_kwarg.2.2 exEnv "compound" nbSchema [[1]] [[0, 0]]
     (Node.leaf "compound" [("schema", nbSchema)] .Fitted (some "compound")) rfl⟩

end TextWiser
